import Mathlib

/-!
# Sudoku solver by generic best-value depth-first search

A shallow embedding of `GenericDFS.c`, `SudokuTree.c` and the tail of `main` in
`SudokuSolver.c`, followed by theorems about the embedded functions.

Conventions of the embedding

* A `pNode` that may be `NULL` is an `Option`; a pointer the C code asserts to be non-`NULL`
  is a plain value.
* `unsigned int` is a natural number; the only arithmetic that can wrap is the increment of
  `filledCells`, which is taken modulo `2 ^ 32`.
* The recursion of `getSubtreeBest` is bounded by a fuel argument; exhausting it is the fault
  `Fault.outOfFuel`, distinct from every value the C function can return.
* Every application of a callback is recorded, in order, in a log of `Event`s that is returned
  next to the result.
* `malloc` is taken to succeed inside the Sudoku callbacks; the generic engine keeps every
  failure path of its callbacks.
* `assert` lines are preconditions: they are not executed by the embedding.
-/

namespace Sudoku

/-! ## GenericDFS.c -/

/-- The value of the local `children` after `getChildren(current, &children)` returned. The
local is declared without initialiser, so a callee that does not write through the pointer
leaves it indeterminate. -/
inductive ChildPtr (α : Type) where
  /-- nothing was written: the local is still indeterminate -/
  | unset : ChildPtr α
  /-- `NULL` was written -/
  | null : ChildPtr α
  /-- an array was written; `cs` lists its initialised entries from index 0 -/
  | arr (cs : List (Option α)) : ChildPtr α

/-- Ways an execution leaves the part of C the embedding gives a meaning to. -/
inductive Fault where
  /-- the fuel of the embedding ran out (no C counterpart) -/
  | outOfFuel : Fault
  /-- an indeterminate pointer or array entry was read -/
  | uninitialised : Fault
  /-- `getVal` was applied to a `NULL` best candidate -/
  | nullCandidate : Fault
  deriving DecidableEq, Repr

/-- One application of a callback, with its argument. -/
inductive Event (α : Type) where
  | value (a : α) : Event α
  | children (a : α) : Event α
  | copy (a : α) : Event α
  | free (a : Option α) : Event α

/-- The callbacks `getSubtreeBest` passes along unchanged. `freeNode` returns nothing and
appears in the log only. -/
structure Callbacks (α : Type) where
  /-- returns the `int` result and what it left in `*children` -/
  getChildren : α → Int × ChildPtr α
  getVal : α → Nat
  copy : α → Option α

/-- A returned `pNode` (`none` is `NULL`) or a fault, together with the log of callback
applications. -/
abbrev Run (α : Type) : Type := Except Fault (Option α) × List (Event α)

/-- The function `updateBestCandidate`; `search` stands for the recursive call of
`getSubtreeBest` with the same callbacks and target. -/
def updateBestCandidate {α : Type} (search : α → Run α) (cb : Callbacks α) (best : Nat)
    (bestCandidate : α) (currentChild : Option α) : Run α :=
  let bestVal := cb.getVal bestCandidate
  match currentChild with
  | none => (.ok none, [Event.value bestCandidate, Event.free (some bestCandidate)])
  | some child =>
    match search child with
    | (.error e, l) => (.error e, Event.value bestCandidate :: l)
    | (.ok none, l) =>
      (.ok none, Event.value bestCandidate :: (l ++ [Event.free (some bestCandidate)]))
    | (.ok (some newCandidate), l) =>
      let newVal := cb.getVal newCandidate
      if newVal > bestVal ∧ newVal ≤ best then
        (.ok (some newCandidate), Event.value bestCandidate ::
          (l ++ [Event.value newCandidate, Event.free (some bestCandidate)]))
      else
        (.ok (some bestCandidate), Event.value bestCandidate ::
          (l ++ [Event.value newCandidate, Event.free (some newCandidate)]))

/-- The first `for` loop of `getSubtreeBest`, over the children not yet walked. -/
def childLoop {α : Type} (search : α → Run α) (cb : Callbacks α) (best : Nat) :
    List (Option α) → α → Run α
  | [], bestCandidate => (.ok (some bestCandidate), [])
  | child :: rest, bestCandidate =>
    if cb.getVal bestCandidate = best then
      (.ok (some bestCandidate), [Event.value bestCandidate])
    else
      match updateBestCandidate search cb best bestCandidate child with
      | (.ok (some next), l) =>
        let r := childLoop search cb best rest next
        (r.1, Event.value bestCandidate :: (l ++ r.2))
      | (.ok none, l) => (.ok none, Event.value bestCandidate :: l)
      | (.error e, l) => (.error e, Event.value bestCandidate :: l)

/-- The function `getSubtreeBest`. -/
def getSubtreeBest {α : Type} : Nat → Callbacks α → Nat → α → Run α
  | 0, _, _, _ => (.error Fault.outOfFuel, [])
  | fuel + 1, cb, best, current =>
    if cb.getVal current = best then
      (.ok (cb.copy current), [Event.value current, Event.copy current])
    else
      match cb.getChildren current with
      | (_, ChildPtr.unset) =>
        (.error Fault.uninitialised, [Event.value current, Event.children current])
      | (_, ChildPtr.null) =>
        (.ok (cb.copy current),
          [Event.value current, Event.children current, Event.copy current])
      | (numChildren, ChildPtr.arr cs) =>
        if numChildren < 0 then
          (.ok none, [Event.value current, Event.children current])
        else
          match cb.copy current with
          | none =>
            if numChildren = 0 then
              (.ok none, [Event.value current, Event.children current, Event.copy current])
            else
              (.error Fault.nullCandidate,
                [Event.value current, Event.children current, Event.copy current])
          | some bestCandidate =>
            if cs.length < numChildren.toNat then
              (.error Fault.uninitialised,
                [Event.value current, Event.children current, Event.copy current])
            else
              let walked := cs.take numChildren.toNat
              match childLoop (getSubtreeBest fuel cb best) cb best walked bestCandidate with
              | (.error e, l) =>
                (.error e,
                  Event.value current :: Event.children current :: Event.copy current :: l)
              | (.ok r, l) =>
                (.ok r, Event.value current :: Event.children current :: Event.copy current ::
                  (l ++ walked.map Event.free))

/-- The function `getBest`: each of the five pointers may be `NULL`. -/
def getBest {α : Type} (fuel : Nat) (head : Option α)
    (getChildren : Option (α → Int × ChildPtr α)) (getVal : Option (α → Nat))
    (freeNode : Option (Option α → Unit)) (copy : Option (α → Option α)) (best : Nat) :
    Run α :=
  match head, getChildren, getVal, freeNode, copy with
  | some h, some gc, some gv, some _, some cp => getSubtreeBest fuel ⟨gc, gv, cp⟩ best h
  | _, _, _, _, _ => (.ok none, [])

/-! ## SudokuTree.c -/

/-- The struct `SudokuBoard`; `grid` is the array of rows. -/
structure Board where
  size : Nat
  grid : List (List Nat)
  filledCells : Nat
  deriving DecidableEq, Repr

/-- The function `newBoard`, allocation succeeding. -/
def newBoard (size : Nat) : Board :=
  { size := size, grid := List.replicate size (List.replicate size 0), filledCells := 0 }

/-- The function `getCellValue`: `board->grid[i][j]`. An index outside the grid, which C
leaves undefined, reads 0. -/
def getCellValue (b : Board) (i j : Nat) : Nat :=
  (b.grid.getD i []).getD j 0

/-- The function `setCell`; `filledCells++` wraps at `2 ^ 32`. -/
def setCell (b : Board) (i j val : Nat) : Board :=
  { b with
    grid := b.grid.set i ((b.grid.getD i []).set j val)
    filledCells := if val ≠ 0 then (b.filledCells + 1) % 4294967296 else b.filledCells }

/-- Greatest `m ≤ k` with `m * m ≤ n`. -/
def sqrtDown (n : Nat) : Nat → Nat
  | 0 => 0
  | k + 1 => if (k + 1) * (k + 1) ≤ n then k + 1 else sqrtDown n k

/-- The expression `(unsigned int)sqrt(n)`: the integer part of the square root (the `double`
square root of an `unsigned int` is exact enough for the truncation to give it). -/
def usqrt (n : Nat) : Nat :=
  sqrtDown n n

/-- The function `checkCell`: the row and column scan, then the block scan. -/
def checkCell (b : Board) (i j val : Nat) : Bool :=
  ((List.range b.size).all fun k =>
    getCellValue b i k != val && getCellValue b k j != val) &&
  (let blockSize := usqrt b.size
   let i0 := i - i % blockSize
   let j0 := j - j % blockSize
   (List.range' i0 blockSize).all fun k =>
     (List.range' j0 blockSize).all fun l => getCellValue b k l != val)

/-- The function `copyBoard` on a non-`NULL` board, allocation succeeding. -/
def copyBoard (b : Board) : Board :=
  (List.range b.size).foldl
    (fun c i => (List.range b.size).foldl (fun c j => setCell c i j (getCellValue b i j)) c)
    (newBoard b.size)

/-- The function `getFilledCells` on a non-`NULL` board. -/
def getFilledCells (b : Board) : Nat :=
  b.filledCells

/-- The function `freeBoard`: it returns nothing. -/
def freeBoard (_node : Option Board) : Unit :=
  ()

/-- The function `nextEmptyBlock`: `none` is `FALSE`, `some (i, j)` is `TRUE` with the two
out-parameters. -/
def nextEmptyBlock (b : Board) : Option (Nat × Nat) :=
  (List.range b.size).findSome? fun i =>
    ((List.range b.size).find? fun j => getCellValue b i j == 0).map fun j => (i, j)

/-- The function `assignBoardChildren`, allocation succeeding: the children written to the
array, in order; the returned count is the length of this list. -/
def assignBoardChildren (b : Board) (i j : Nat) : List Board :=
  (List.range' 1 b.size).filterMap fun val =>
    if checkCell b i j val then some (setCell (copyBoard b) i j val) else none

/-- The function `getBoardChildren` on non-`NULL` arguments, allocation succeeding. Without an
empty cell it returns 0 and does not write `*children`. -/
def getBoardChildren (b : Board) : Int × ChildPtr Board :=
  match nextEmptyBlock b with
  | none => (0, ChildPtr.unset)
  | some (i, j) =>
    let cs := assignBoardChildren b i j
    ((cs.length : Int), ChildPtr.arr (cs.map some))

/-- The callback `copyBoard` as the engine sees it: a `pNode` that is never `NULL`. -/
def copyNode (b : Board) : Option Board :=
  some (copyBoard b)

/-- The three value-returning Sudoku callbacks. -/
def sudokuCallbacks : Callbacks Board :=
  { getChildren := getBoardChildren, getVal := getFilledCells, copy := copyNode }

/-! ## SudokuSolver.c -/

/-- The call `getBest(board, getBoardChildren, getFilledCells, freeBoard, copyBoard, best)`. -/
def solve (fuel : Nat) (board : Board) (best : Nat) : Run Board :=
  getBest fuel (some board) (some getBoardChildren) (some getFilledCells) (some freeBoard)
    (some copyNode) best

/-- One row of `printBoard`: each value followed by a space, the last one by a newline. -/
def printRow (b : Board) (i : Nat) : String :=
  (List.range b.size).foldl
    (fun out j => out ++ toString (getCellValue b i j) ++
      (if j < b.size - 1 then " " else "\n")) ""

/-- The function `printBoard`: the text written to the standard output. -/
def printBoard (b : Board) : String :=
  (List.range b.size).foldl (fun out i => out ++ printRow b i) (toString b.size ++ "\n")

/-- The part of `main` after `scanBoard` returned a board and the file was closed: the text
written to the standard output and the exit code. -/
def mainAfterScan (fuel : Nat) (board : Board) : Except Fault (String × Int) :=
  let best := board.size * board.size
  match (solve fuel board best).1 with
  | .error e => .error e
  | .ok none => .ok ("no solution!\n", 0)
  | .ok (some bestBoard) => .ok (printBoard bestBoard, 0)

/-! ## Vocabulary of the statements: trees spanned by callbacks -/

/-- The children of `x` in the tree the callbacks span: the non-`NULL` entries among the
first `numChildren` of the array `getChildren` reports. -/
def childNodes {α : Type} (cb : Callbacks α) (x : α) : List α :=
  match cb.getChildren x with
  | (numChildren, ChildPtr.arr cs) => (cs.take numChildren.toNat).filterMap id
  | _ => []

/-- The nodes of the subtree of `x`, down to depth `fuel`, in depth-first left-to-right
pre-order. -/
def preorder {α : Type} : Nat → Callbacks α → α → List α
  | 0, _, _ => []
  | fuel + 1, cb, x => x :: (childNodes cb x).flatMap (preorder fuel cb)

/-- Callbacks that do not fail on the nodes satisfying `P`, which span a tree of finite
depth there: `copy` returns a node of the same value, and on a node whose value is not the
target `getChildren` either writes `NULL` or writes an array of non-`NULL` nodes, all in
`P` and of smaller rank `rank`, and returns its length. -/
structure Tame {α : Type} (cb : Callbacks α) (best : Nat) (P : α → Prop) (rank : α → Nat) :
    Prop where
  copy_ok : ∀ x, P x → ∃ x', cb.copy x = some x' ∧ cb.getVal x' = cb.getVal x
  children_ok : ∀ x, P x → cb.getVal x ≠ best →
    (∃ n, cb.getChildren x = (n, ChildPtr.null)) ∨
    ∃ cs : List α, cb.getChildren x = ((cs.length : Int), ChildPtr.arr (cs.map some)) ∧
      ∀ c ∈ cs, P c ∧ rank c < rank x

/-- Callbacks that never fail and span trees of finite depth: `Tame` on every node. -/
def NonFailing {α : Type} (cb : Callbacks α) (best : Nat) (rank : α → Nat) : Prop :=
  Tame cb best (fun _ => True) rank

/-- What the search of a subtree with node list `T` delivers: a copy `r` of a node `y` of
`T` in `P`; when no value in `P` exceeds the target, `y` is the first node of `T` with the
value of `r`, and that value is the target or the greatest of `T`. -/
def Delivers {α : Type} (cb : Callbacks α) (best : Nat) (P : α → Prop) (T : List α)
    (r : α) : Prop :=
  ∃ y, y ∈ T ∧ P y ∧ cb.copy y = some r ∧
    ((∀ z, P z → cb.getVal z ≤ best) →
      T.find? (fun z => decide (cb.getVal z = cb.getVal r)) = some y ∧
      (cb.getVal r = best ∨ ∀ z ∈ T, cb.getVal z ≤ cb.getVal r))

/-- Bounds on a run from node `x` that returned `r` with log `l`: a start at most the target
gives a result at most the target, and when every value in the log is at most the target,
the result has the greatest value in the log. -/
def Bounded {α : Type} (cb : Callbacks α) (best : Nat) (x r : α) (l : List (Event α)) :
    Prop :=
  cb.getVal x ≤ cb.getVal r ∧
  (cb.getVal x ≤ best → cb.getVal r ≤ best) ∧
  ((∀ z, Event.value z ∈ l → cb.getVal z ≤ best) →
    ∀ z, Event.value z ∈ l → cb.getVal z ≤ cb.getVal r)

/-- The callbacks `cb'` answer as `cb` does on every application recorded in `l`. -/
def AgreeOn {α : Type} (cb cb' : Callbacks α) (l : List (Event α)) : Prop :=
  ∀ e ∈ l,
    match e with
    | Event.value a => cb'.getVal a = cb.getVal a
    | Event.children a => cb'.getChildren a = cb.getChildren a
    | Event.copy a => cb'.copy a = cb.copy a
    | Event.free _ => True

/-! ## A small tree of numbered nodes

Node 0 (value 1) has the children 1 (value 2) and 2 (value 5); node 1 has the child 3
(value 5); nodes 2 and 3 are leaves. -/

/-- Children of the numbered nodes. -/
def demoChildren : Nat → Int × ChildPtr Nat
  | 0 => (2, ChildPtr.arr [some 1, some 2])
  | 1 => (1, ChildPtr.arr [some 3])
  | _ => (0, ChildPtr.null)

/-- Values of the numbered nodes. -/
def demoVal : Nat → Nat
  | 0 => 1
  | 1 => 2
  | 2 => 5
  | 3 => 5
  | _ => 0

/-- Copying a numbered node gives the same number. -/
def demoCopy (n : Nat) : Option Nat :=
  some n

/-- Releasing a numbered node does nothing. -/
def demoFree (_node : Option Nat) : Unit :=
  ()

/-- Height of the numbered nodes. -/
def demoRank : Nat → Nat
  | 0 => 2
  | 1 => 1
  | _ => 0

/-- The callbacks of the numbered tree. -/
def demoTable : Callbacks Nat :=
  { getChildren := demoChildren, getVal := demoVal, copy := demoCopy }

/-! ## Vocabulary of the statements: boards -/

/-- Number of non-zero entries of the grid. -/
def countFilled (b : Board) : Nat :=
  (b.grid.map fun row => row.countP (fun v => v != 0)).sum

/-- A board of the data model: a positive size `N`, a grid of `N` rows of `N` cells,
`filledCells` the number of non-zero cells, and `N * N` within `unsigned int`. -/
def WellFormed (b : Board) : Prop :=
  0 < b.size ∧ b.grid.length = b.size ∧ (∀ row ∈ b.grid, row.length = b.size) ∧
  b.filledCells = countFilled b ∧ b.size * b.size < 4294967296

instance (b : Board) : Decidable (WellFormed b) := by
  unfold WellFormed; infer_instance

/-- Two cells lie in one row, one column or one block of side `usqrt size`. -/
def Related (b : Board) (i j i' j' : Nat) : Prop :=
  i = i' ∨ j = j' ∨ (i / usqrt b.size = i' / usqrt b.size ∧ j / usqrt b.size = j' / usqrt b.size)

instance (b : Board) (i j i' j' : Nat) : Decidable (Related b i j i' j') := by
  unfold Related; infer_instance

/-- The value of cell `(i, j)`, when not zero, occurs in no other cell of its row, its
column and its block. -/
def UniqueAt (b : Board) (i j : Nat) : Prop :=
  ∀ i' < b.size, ∀ j' < b.size,
    getCellValue b i j ≠ 0 ∧ getCellValue b i j = getCellValue b i' j' ∧
      Related b i j i' j' → i = i' ∧ j = j'

instance (b : Board) (i j : Nat) : Decidable (UniqueAt b i j) := by
  unfold UniqueAt; infer_instance

/-- The non-zero values are pairwise distinct in every row, column and block. -/
def Legal (b : Board) : Prop :=
  ∀ i < b.size, ∀ j < b.size, UniqueAt b i j

instance (b : Board) : Decidable (Legal b) := by
  unfold Legal; infer_instance

/-- No cell of the board is empty. -/
def Full (b : Board) : Prop :=
  ∀ i < b.size, ∀ j < b.size, getCellValue b i j ≠ 0

instance (b : Board) : Decidable (Full b) := by
  unfold Full; infer_instance

/-- The board `c` is a completion of `b`: same size, every cell in `1..size`, legal, and
equal to `b` on every non-zero cell of `b`. -/
def Completes (c b : Board) : Prop :=
  c.size = b.size ∧ Legal c ∧
  (∀ i < b.size, ∀ j < b.size, 1 ≤ getCellValue c i j ∧ getCellValue c i j ≤ b.size) ∧
  (∀ i < b.size, ∀ j < b.size, getCellValue b i j ≠ 0 → getCellValue c i j = getCellValue b i j)

instance (c b : Board) : Decidable (Completes c b) := by
  unfold Completes; infer_instance

/-- Number of empty cells of a well-formed board. -/
def emptyCells (b : Board) : Nat :=
  b.size * b.size - countFilled b

/-- The state of `copyBoard` when the rows before `i` and the first `n` cells of row `i` have
been set: `c` is well formed, of the size of `b`, equal to `b` on those cells and zero on
the others. -/
def CopiedUpTo (b c : Board) (i n : Nat) : Prop :=
  WellFormed c ∧ c.size = b.size ∧
  ∀ i' < b.size, ∀ j' < b.size,
    getCellValue c i' j' = if i' < i ∨ (i' = i ∧ j' < n) then getCellValue b i' j' else 0

/-- The values of row `i`, left to right. -/
def rowValues (b : Board) (i : Nat) : List Nat :=
  (List.range b.size).map fun j => getCellValue b i j

/-- The values of column `j`, top to bottom. -/
def colValues (b : Board) (j : Nat) : List Nat :=
  (List.range b.size).map fun i => getCellValue b i j

/-- The values of block number `k`, the blocks counted row by row. -/
def blockValues (b : Board) (k : Nat) : List Nat :=
  (List.range' (k / usqrt b.size * usqrt b.size) (usqrt b.size)).flatMap fun i =>
    (List.range' (k % usqrt b.size * usqrt b.size) (usqrt b.size)).map fun j =>
      getCellValue b i j

/-- The root board of scenario A. -/
def scenarioA : Board :=
  { size := 4, grid := [[1, 0, 0, 4], [0, 0, 0, 0], [0, 0, 0, 0], [4, 0, 0, 1]],
    filledCells := 4 }

/-- The board the search returns in scenario A. -/
def scenarioASolved : Board :=
  { size := 4, grid := [[1, 2, 3, 4], [3, 4, 1, 2], [2, 1, 4, 3], [4, 3, 2, 1]],
    filledCells := 16 }

/-- The root board of scenario C. -/
def scenarioC : Board :=
  { size := 1, grid := [[0]], filledCells := 0 }

/-- A legal board without completion: the last cell of the first row sees 1, 2 and 3 in
its row and 4 in its column. -/
def stuckBoard : Board :=
  { size := 4, grid := [[1, 2, 3, 0], [0, 0, 0, 4], [0, 0, 0, 0], [0, 0, 0, 0]],
    filledCells := 4 }

/-- The cell `(i, j)` is the first empty cell in row-major order. -/
def FirstEmpty (b : Board) (i j : Nat) : Prop :=
  i < b.size ∧ j < b.size ∧ getCellValue b i j = 0 ∧
  (∀ j' < j, getCellValue b i j' ≠ 0) ∧
  (∀ i' < i, ∀ j' < b.size, getCellValue b i' j' ≠ 0)

instance (b : Board) (i j : Nat) : Decidable (FirstEmpty b i j) := by
  unfold FirstEmpty; infer_instance

/-- A board built by `newBoard` and then by `setCell` calls that respect what `setCell`
asserts: indices inside the grid, a value in `0..size`, the cell empty before the call. -/
inductive Built : Board → Prop where
  | new (N : Nat) (hpos : 0 < N) (hfit : N * N < 4294967296) : Built (newBoard N)
  | set (b : Board) (i j v : Nat) (hb : Built b) (hi : i < b.size) (hj : j < b.size)
      (hv : v ≤ b.size) (h0 : getCellValue b i j = 0) : Built (setCell b i j v)

/-- A board of perfect-square size built as in `Built`, every non-zero value being set only
where `checkCell` accepts it. -/
inductive BuiltChecked : Board → Prop where
  | new (s : Nat) (hpos : 0 < s) (hfit : s * s * (s * s) < 4294967296) :
      BuiltChecked (newBoard (s * s))
  | set (b : Board) (i j v : Nat) (hb : BuiltChecked b) (hi : i < b.size) (hj : j < b.size)
      (hv : v ≤ b.size) (h0 : getCellValue b i j = 0)
      (hck : v ≠ 0 → checkCell b i j v = true) : BuiltChecked (setCell b i j v)

/-- The board the driver builds from the clues `1 1 0 0` in the first row of a board of
size 4, all other cells empty. -/
def twoOnes : Board :=
  setCell (setCell (newBoard 4) 0 0 1) 0 1 1

/-- The board built from the clue 1 in the first cell and 2 in the second cell of a board
of size 4. -/
def oneTwo : Board :=
  setCell (setCell (newBoard 4) 0 0 1) 0 1 2

/-- A children callback that fails as `getBoardChildren` does when its `malloc` returns
`NULL`: it writes `NULL` to the array pointer and returns `ERROR`. -/
def failChildren (_node : Nat) : Int × ChildPtr Nat :=
  (-1, ChildPtr.null)

/-- The nodes an application of a callback hands over to the engine: the copy made by
`copy`, the non-`NULL` entries among the first `numChildren` of the array written by
`getChildren` (none when it reports failure). -/
def allocatedBy {α : Type} (cb : Callbacks α) : Event α → List α
  | Event.copy a => (cb.copy a).toList
  | Event.children a => childNodes cb a
  | _ => []

/-- The nodes handed over to the engine during a run, in the order of its log. -/
def allocated {α : Type} (cb : Callbacks α) (l : List (Event α)) : List α :=
  l.flatMap (allocatedBy cb)

/-- The node an application of `freeNode` releases; releasing `NULL` releases nothing. -/
def releasedBy {α : Type} : Event α → List α
  | Event.free (some a) => [a]
  | _ => []

/-- The nodes released during a run, in the order of its log. -/
def released {α : Type} (l : List (Event α)) : List α :=
  l.flatMap releasedBy

/-- The ownership balance of a run that started owning the nodes `own`: what it owned and
what was handed over to it is, up to order and with multiplicity, what it returns and what
it released. -/
def Balanced {α : Type} (cb : Callbacks α) (own : List α) (r : Option α)
    (l : List (Event α)) : Prop :=
  ((own ++ allocated cb l : List α) : Multiset α) =
    ((r.toList ++ released l : List α) : Multiset α)

/-- Values of the numbered nodes and of their copies: the copy of node `n` is `n + 10`. -/
def tagVal (n : Nat) : Nat :=
  demoVal (n % 10)

/-- Copying the numbered node `n` gives the new node `n + 10`. -/
def tagCopy (n : Nat) : Option Nat :=
  some (n + 10)

/-- The callbacks of the numbered tree with copies told apart from the nodes. -/
def tagTable : Callbacks Nat :=
  { getChildren := demoChildren, getVal := tagVal, copy := tagCopy }

/-- The checked form of `board->grid[i][j]`: `none` when the row or the column index lies
outside the grid. -/
def cellAt? (b : Board) (i j : Nat) : Option Nat :=
  (b.grid[i]?).bind fun row => row[j]?

/-- The index pairs `checkCell` reads when no comparison makes it return early, in order:
row `i` and column `j` cell by cell, then the block. -/
def checkCellReads (b : Board) (i j : Nat) : List (Nat × Nat) :=
  ((List.range b.size).flatMap fun k => [(i, k), (k, j)]) ++
  (let blockSize := usqrt b.size
   let i0 := i - i % blockSize
   let j0 := j - j % blockSize
   (List.range' i0 blockSize).flatMap fun k =>
     (List.range' j0 blockSize).map fun l => (k, l))

/-- The boards `r` and `c` hold the same value in every cell of the grid of `r`. -/
def SameCells (r c : Board) : Prop :=
  ∀ i < r.size, ∀ j < r.size, getCellValue r i j = getCellValue c i j

/-- The grid of `r`, read in row-major order, comes before that of `c`: at the first cell
where the two differ `r` holds the smaller value. -/
def LexLess (r c : Board) : Prop :=
  ∃ i j, i < r.size ∧ j < r.size ∧ getCellValue r i j < getCellValue c i j ∧
    ∀ i' < r.size, ∀ j' < r.size, (i' < i ∨ (i' = i ∧ j' < j)) →
      getCellValue r i' j' = getCellValue c i' j'

/-! # Theorems -/

variable {α : Type}

/-! ## The generic engine -/

theorem updateBestCandidate_some (search : α → Run α) (cb : Callbacks α) (best : Nat)
    (bc c nc : α) (l : List (Event α)) (h : search c = (.ok (some nc), l)) :
    updateBestCandidate search cb best bc (some c) =
      (.ok (some (if cb.getVal nc > cb.getVal bc ∧ cb.getVal nc ≤ best then nc else bc)),
        Event.value bc :: (l ++ [Event.value nc, Event.free (some
          (if cb.getVal nc > cb.getVal bc ∧ cb.getVal nc ≤ best then bc else nc))])) := by
  simp only [updateBestCandidate, h]
  split <;> rfl

theorem childLoop_cons_some (search : α → Run α) (cb : Callbacks α) (best : Nat)
    (bc c nc : α) (rest : List (Option α)) (l : List (Event α))
    (hv : cb.getVal bc ≠ best) (h : search c = (.ok (some nc), l)) :
    childLoop search cb best (some c :: rest) bc =
      ((childLoop search cb best rest
          (if cb.getVal nc > cb.getVal bc ∧ cb.getVal nc ≤ best then nc else bc)).1,
        Event.value bc :: ((Event.value bc :: (l ++ [Event.value nc, Event.free (some
          (if cb.getVal nc > cb.getVal bc ∧ cb.getVal nc ≤ best then bc else nc))])) ++
          (childLoop search cb best rest
            (if cb.getVal nc > cb.getVal bc ∧ cb.getVal nc ≤ best then nc else bc)).2)) := by
  rw [childLoop, if_neg hv, updateBestCandidate_some search cb best bc c nc l h]

theorem Tame.copy_val {cb : Callbacks α} {best : Nat} {P : α → Prop} {rank : α → Nat}
    (ht : Tame cb best P rank) {y r : α} (hy : P y) (hc : cb.copy y = some r) :
    cb.getVal r = cb.getVal y := by
  obtain ⟨x', hx', hv⟩ := ht.copy_ok y hy
  rw [hc] at hx'
  cases hx'
  exact hv

theorem childLoop_delivers {cb : Callbacks α} {best : Nat} {P : α → Prop} {rank : α → Nat}
    (ht : Tame cb best P rank) (search : α → Run α) (T : α → List α) :
    ∀ (cs : List α) (L : List α) (bc : α),
      (∀ c ∈ cs, ∃ nc l, search c = (.ok (some nc), l) ∧ Delivers cb best P (T c) nc) →
      Delivers cb best P L bc →
      ∃ r l, childLoop search cb best (cs.map some) bc = (.ok (some r), l) ∧
        Delivers cb best P (L ++ cs.flatMap T) r := by
  intro cs
  induction cs with
  | nil =>
    intro L bc _ hbc
    exact ⟨bc, [], rfl, by simpa using hbc⟩
  | cons c rest ih =>
    intro L bc hsub hbc
    obtain ⟨y0, hy0L, hPy0, hcopy0, hH0⟩ := hbc
    have hvbc : cb.getVal bc = cb.getVal y0 := ht.copy_val hPy0 hcopy0
    by_cases hv : cb.getVal bc = best
    · refine ⟨bc, [Event.value bc], ?_, y0, ?_, hPy0, hcopy0, ?_⟩
      · simp [childLoop, hv]
      · exact List.mem_append_left _ hy0L
      · intro H
        obtain ⟨hf, _⟩ := hH0 H
        refine ⟨?_, Or.inl hv⟩
        rw [List.find?_append, hf]; rfl
    · obtain ⟨nc, l1, hs, yc, hycT, hPyc, hcopyc, hHc⟩ := hsub c (List.mem_cons_self _ _)
      have hvnc : cb.getVal nc = cb.getVal yc := ht.copy_val hPyc hcopyc
      have hrest : ∀ c' ∈ rest, ∃ nc l, search c' = (.ok (some nc), l) ∧
          Delivers cb best P (T c') nc := fun c' hc' => hsub c' (List.mem_cons_of_mem _ hc')
      have key : Delivers cb best P (L ++ T c)
          (if cb.getVal nc > cb.getVal bc ∧ cb.getVal nc ≤ best then nc else bc) := by
        by_cases hg : cb.getVal nc > cb.getVal bc ∧ cb.getVal nc ≤ best
        · rw [if_pos hg]
          refine ⟨yc, List.mem_append_right _ hycT, hPyc, hcopyc, ?_⟩
          intro H
          obtain ⟨_, hb0⟩ := hH0 H
          obtain ⟨hfc, hbc⟩ := hHc H
          have hL : ∀ z ∈ L, cb.getVal z ≤ cb.getVal bc := by
            rcases hb0 with h | h
            · exact absurd h hv
            · exact h
          constructor
          · rw [List.find?_append]
            have : L.find? (fun z => decide (cb.getVal z = cb.getVal nc)) = none := by
              rw [List.find?_eq_none]
              intro z hz
              have := hL z hz
              simp only [decide_eq_true_eq]
              omega
            rw [this, hfc]; rfl
          · rcases hbc with h | h
            · exact Or.inl h
            · right
              intro z hz
              rcases List.mem_append.1 hz with hz | hz
              · have := hL z hz; omega
              · exact h z hz
        · rw [if_neg hg]
          refine ⟨y0, List.mem_append_left _ hy0L, hPy0, hcopy0, ?_⟩
          intro H
          obtain ⟨hf0, hb0⟩ := hH0 H
          obtain ⟨_, hbc⟩ := hHc H
          have hL : ∀ z ∈ L, cb.getVal z ≤ cb.getVal bc := by
            rcases hb0 with h | h
            · exact absurd h hv
            · exact h
          have hncb : cb.getVal nc ≤ best := by rw [hvnc]; exact H yc hPyc
          have hbcb : cb.getVal bc ≤ best := by rw [hvbc]; exact H y0 hPy0
          have hle : cb.getVal nc ≤ cb.getVal bc := by
            by_contra hcon
            exact hg ⟨by omega, hncb⟩
          constructor
          · rw [List.find?_append, hf0]; rfl
          · right
            intro z hz
            rcases List.mem_append.1 hz with hz | hz
            · exact hL z hz
            · rcases hbc with h | h
              · omega
              · have := h z hz; omega
      obtain ⟨r, l, hrun, hdel⟩ := ih (L ++ T c) _ hrest key
      have e := childLoop_cons_some search cb best bc c nc (rest.map some) l1 hv hs
      rw [hrun] at e
      exact ⟨r, _, e, by simpa [List.flatMap_cons, List.append_assoc] using hdel⟩

theorem childNodes_arr (cb : Callbacks α) (x : α) (cs : List α)
    (h : cb.getChildren x = ((cs.length : Int), ChildPtr.arr (cs.map some))) :
    childNodes cb x = cs := by
  have h1 : (cs.map some).take cs.length = cs.map some :=
    List.take_of_length_le (by simp)
  have h2 : (cs.map some).filterMap id = cs := by
    induction cs with
    | nil => rfl
    | cons a t ih => simp
  simp only [childNodes, h, Int.toNat_ofNat, h1, h2]

theorem childNodes_null (cb : Callbacks α) (x : α) (n : Int)
    (h : cb.getChildren x = (n, ChildPtr.null)) : childNodes cb x = [] := by
  simp [childNodes, h]

theorem getSubtreeBest_arr (fuel : Nat) (cb : Callbacks α) (best : Nat) (x bc : α)
    (cs : List α) (r : Option α) (l : List (Event α))
    (hv : cb.getVal x ≠ best)
    (hch : cb.getChildren x = ((cs.length : Int), ChildPtr.arr (cs.map some)))
    (hc : cb.copy x = some bc)
    (hl : childLoop (getSubtreeBest fuel cb best) cb best (cs.map some) bc = (.ok r, l)) :
    getSubtreeBest (fuel + 1) cb best x =
      (.ok r, Event.value x :: Event.children x :: Event.copy x ::
        (l ++ (cs.map some).map Event.free)) := by
  have h0 : ¬ ((cs.length : Int) < 0) := by omega
  have h1 : (cs.map some).take cs.length = cs.map some :=
    List.take_of_length_le (by simp)
  simp only [getSubtreeBest, hv, hch, hc, if_false, h0, Int.toNat_ofNat, List.length_map,
    lt_irrefl, h1, hl]

theorem getSubtreeBest_delivers {cb : Callbacks α} {best : Nat} {P : α → Prop}
    {rank : α → Nat} (ht : Tame cb best P rank) :
    ∀ (fuel : Nat) (x : α), P x → rank x < fuel →
      ∃ r l, getSubtreeBest fuel cb best x = (.ok (some r), l) ∧
        Delivers cb best P (preorder fuel cb x) r := by
  intro fuel
  induction fuel with
  | zero => intro x _ h; omega
  | succ fuel ih =>
    intro x hPx hrank
    obtain ⟨x', hcopy, hval⟩ := ht.copy_ok x hPx
    have self : ∀ tl : List α, (∀ z ∈ tl, cb.getVal z ≤ cb.getVal x' ∨ cb.getVal x' = best) →
        Delivers cb best P (x :: tl) x' := by
      intro tl htl
      refine ⟨x, List.mem_cons_self _ _, hPx, hcopy, fun _ => ⟨?_, ?_⟩⟩
      · simp [List.find?_cons, hval]
      · by_cases hb : cb.getVal x' = best
        · exact Or.inl hb
        · right
          intro z hz
          rcases List.mem_cons.1 hz with rfl | hz
          · omega
          · rcases htl z hz with h | h
            · exact h
            · exact absurd h hb
    by_cases hv : cb.getVal x = best
    · refine ⟨x', [Event.value x, Event.copy x], ?_,
        self _ (fun z _ => Or.inr (hval.trans hv))⟩
      simp [getSubtreeBest, hv, hcopy]
    · rcases ht.children_ok x hPx hv with ⟨n, hch⟩ | ⟨cs, hch, hcs⟩
      · refine ⟨x', [Event.value x, Event.children x, Event.copy x], ?_, ?_⟩
        · simp [getSubtreeBest, hv, hch, hcopy]
        · rw [preorder, childNodes_null cb x n hch]
          exact self _ (fun z hz => by simp at hz)
      · have hsub : ∀ c ∈ cs, ∃ nc l, getSubtreeBest fuel cb best c = (.ok (some nc), l) ∧
            Delivers cb best P (preorder fuel cb c) nc :=
          fun c hc => ih c (hcs c hc).1 (by have := (hcs c hc).2; omega)
        obtain ⟨r, l, hrun, hdel⟩ := childLoop_delivers ht (getSubtreeBest fuel cb best)
          (preorder fuel cb) cs [x] x' hsub
          (by simpa using self [] (fun z hz => by simp at hz))
        refine ⟨r, _, getSubtreeBest_arr fuel cb best x x' cs (some r) l hv hch hcopy hrun, ?_⟩
        rw [preorder, childNodes_arr cb x cs hch]
        simpa using hdel

theorem childLoop_bounded (cb : Callbacks α) (best : Nat) (search : α → Run α) :
    ∀ (cs : List α) (bc : α),
      (∀ c ∈ cs, ∃ nc l, search c = (.ok (some nc), l) ∧
        ((∀ z, Event.value z ∈ l → cb.getVal z ≤ best) →
          ∀ z, Event.value z ∈ l → cb.getVal z ≤ cb.getVal nc)) →
      ∃ r l, childLoop search cb best (cs.map some) bc = (.ok (some r), l) ∧
        Bounded cb best bc r l := by
  intro cs
  induction cs with
  | nil =>
    intro bc _
    exact ⟨bc, [], rfl, le_refl _, fun h => h, fun _ z hz => by simp at hz⟩
  | cons c rest ih =>
    intro bc hsub
    by_cases hv : cb.getVal bc = best
    · refine ⟨bc, [Event.value bc], by simp [childLoop, hv], le_refl _, fun h => h, ?_⟩
      intro _ z hz
      simp only [List.mem_singleton, Event.value.injEq] at hz
      rw [hz]
    · obtain ⟨nc, l1, hs, hl1⟩ := hsub c (List.mem_cons_self _ _)
      obtain ⟨r, l2, hrun, hmono, hle, hlog⟩ := ih
        (if cb.getVal nc > cb.getVal bc ∧ cb.getVal nc ≤ best then nc else bc)
        (fun c' hc' => hsub c' (List.mem_cons_of_mem _ hc'))
      have e := childLoop_cons_some search cb best bc c nc (rest.map some) l1 hv hs
      rw [hrun] at e
      refine ⟨r, _, e, ?_, ?_, ?_⟩
      · split at hmono <;> omega
      · intro hb
        apply hle
        split
        · rename_i hg; exact hg.2
        · exact hb
      · intro hall z hz
        have hbc : cb.getVal bc ≤ cb.getVal r := by split at hmono <;> omega
        have hncb : cb.getVal nc ≤ best := hall nc (by simp)
        have hnc : cb.getVal nc ≤ cb.getVal r := by
          split at hmono
          · exact hmono
          · rename_i hg
            have : cb.getVal nc ≤ cb.getVal bc := by
              by_contra hcon
              exact hg ⟨by omega, hncb⟩
            omega
        have h1 : ∀ z, Event.value z ∈ l1 → cb.getVal z ≤ cb.getVal nc :=
          hl1 (fun z hz => hall z (by simp [hz]))
        have h2 : ∀ z, Event.value z ∈ l2 → cb.getVal z ≤ cb.getVal r :=
          hlog (fun z hz => hall z (by simp [hz]))
        simp only [List.mem_cons, Event.value.injEq, List.mem_append, List.mem_singleton,
          List.cons_append, List.append_assoc, List.nil_append, reduceCtorEq, or_false,
          false_or] at hz
        rcases hz with rfl | rfl | hz | rfl | hz
        · exact hbc
        · exact hbc
        · have := h1 z hz; omega
        · exact hnc
        · exact h2 z hz

theorem getSubtreeBest_bounded {cb : Callbacks α} {best : Nat} {P : α → Prop}
    {rank : α → Nat} (ht : Tame cb best P rank) :
    ∀ (fuel : Nat) (x : α), P x → rank x < fuel →
      ∃ r l, getSubtreeBest fuel cb best x = (.ok (some r), l) ∧ Bounded cb best x r l := by
  intro fuel
  induction fuel with
  | zero => intro x _ h; omega
  | succ fuel ih =>
    intro x hPx hrank
    obtain ⟨x', hcopy, hval⟩ := ht.copy_ok x hPx
    by_cases hv : cb.getVal x = best
    · refine ⟨x', [Event.value x, Event.copy x], by simp [getSubtreeBest, hv, hcopy],
        by omega, fun h => by omega, ?_⟩
      intro _ z hz
      simp only [List.mem_cons, Event.value.injEq, reduceCtorEq, List.mem_singleton,
        or_false, List.not_mem_nil] at hz
      rw [hz]; omega
    · rcases ht.children_ok x hPx hv with ⟨n, hch⟩ | ⟨cs, hch, hcs⟩
      · refine ⟨x', [Event.value x, Event.children x, Event.copy x],
          by simp [getSubtreeBest, hv, hch, hcopy], by omega, fun h => by omega, ?_⟩
        intro _ z hz
        simp only [List.mem_cons, Event.value.injEq, reduceCtorEq, List.mem_singleton,
          or_false, List.not_mem_nil, false_or] at hz
        rw [hz]; omega
      · have hsub : ∀ c ∈ cs, ∃ nc l, getSubtreeBest fuel cb best c = (.ok (some nc), l) ∧
            ((∀ z, Event.value z ∈ l → cb.getVal z ≤ best) →
              ∀ z, Event.value z ∈ l → cb.getVal z ≤ cb.getVal nc) := by
          intro c hc
          obtain ⟨nc, l, hrun, hb⟩ := ih c (hcs c hc).1 (by have := (hcs c hc).2; omega)
          exact ⟨nc, l, hrun, hb.2.2⟩
        obtain ⟨r, l, hrun, hmono, hle, hlog⟩ :=
          childLoop_bounded cb best (getSubtreeBest fuel cb best) cs x' hsub
        refine ⟨r, _, getSubtreeBest_arr fuel cb best x x' cs (some r) l hv hch hcopy hrun,
          by omega, fun h => hle (by omega), ?_⟩
        intro hall z hz
        have h2 : ∀ z, Event.value z ∈ l → cb.getVal z ≤ cb.getVal r :=
          hlog (fun z hz => hall z (by simp [hz]))
        simp only [List.mem_cons, Event.value.injEq, reduceCtorEq, List.mem_append,
          List.mem_map, false_or, and_false, exists_false, or_false, exists_const] at hz
        rcases hz with rfl | hz
        · omega
        · exact h2 z hz

theorem childLoop_append_target (search : α → Run α) (cb : Callbacks α) (best : Nat) :
    ∀ (pre : List (Option α)) (bc0 bc : α) (l : List (Event α)),
      childLoop search cb best pre bc0 = (.ok (some bc), l) → cb.getVal bc = best →
      ∃ tail, (tail = [] ∨ tail = [Event.value bc]) ∧
        ∀ post, post ≠ [] →
          childLoop search cb best (pre ++ post) bc0 = (.ok (some bc), l ++ tail) := by
  intro pre
  induction pre with
  | nil =>
    intro bc0 bc l h hv
    simp only [childLoop, Prod.mk.injEq, Except.ok.injEq, Option.some.injEq] at h
    obtain ⟨rfl, rfl⟩ := h
    refine ⟨[Event.value bc0], Or.inr rfl, ?_⟩
    intro post hpost
    cases post with
    | nil => exact absurd rfl hpost
    | cons c rest => simp [childLoop, hv]
  | cons c rest ih =>
    intro bc0 bc l h hv
    by_cases hv0 : cb.getVal bc0 = best
    · simp only [childLoop, hv0, if_true, Prod.mk.injEq, Except.ok.injEq,
        Option.some.injEq] at h
      obtain ⟨rfl, rfl⟩ := h
      exact ⟨[], Or.inl rfl, fun post _ => by simp [childLoop, hv0]⟩
    · rw [childLoop, if_neg hv0] at h
      generalize hu : updateBestCandidate search cb best bc0 c = u at h
      rcases u with ⟨(e | (_ | next)), l1⟩
      · simp at h
      · simp at h
      · simp only [Prod.mk.injEq] at h
        obtain ⟨h1, h2⟩ := h
        obtain ⟨tail, htail, hpost⟩ := ih next bc (childLoop search cb best rest next).2
          (Prod.ext h1 rfl) hv
        refine ⟨tail, htail, fun post hp => ?_⟩
        rw [List.cons_append, childLoop, if_neg hv0, hu]
        simp only [hpost post hp, ← h2, List.cons_append, List.append_assoc]

theorem updateBestCandidate_mono (S S' : α → Run α) (cb : Callbacks α) (best : Nat)
    (hS : ∀ c r l, S c = (r, l) → r ≠ .error Fault.outOfFuel → S' c = (r, l))
    (bc : α) (c : Option α) (r : Except Fault (Option α)) (l : List (Event α))
    (h : updateBestCandidate S cb best bc c = (r, l)) (hr : r ≠ .error Fault.outOfFuel) :
    updateBestCandidate S' cb best bc c = (r, l) := by
  cases c with
  | none => simpa [updateBestCandidate] using h
  | some c =>
    rcases hsc : S c with ⟨r1, l1⟩
    have hc : S' c = (r1, l1) := by
      apply hS c r1 l1 hsc
      intro hcon
      rw [updateBestCandidate] at h
      simp only [hsc, hcon, Prod.mk.injEq] at h
      exact hr h.1.symm
    rw [← h]
    simp only [updateBestCandidate, hc, hsc]

theorem childLoop_mono (S S' : α → Run α) (cb : Callbacks α) (best : Nat)
    (hS : ∀ c r l, S c = (r, l) → r ≠ .error Fault.outOfFuel → S' c = (r, l)) :
    ∀ (cs : List (Option α)) (bc : α) (r : Except Fault (Option α)) (l : List (Event α)),
      childLoop S cb best cs bc = (r, l) → r ≠ .error Fault.outOfFuel →
      childLoop S' cb best cs bc = (r, l) := by
  intro cs
  induction cs with
  | nil => intro bc r l h _; simpa [childLoop] using h
  | cons c rest ih =>
    intro bc r l h hr
    by_cases hv : cb.getVal bc = best
    · simpa [childLoop, hv] using h
    · rw [childLoop, if_neg hv] at h
      rw [childLoop, if_neg hv]
      generalize hu : updateBestCandidate S cb best bc c = u at h
      rcases u with ⟨(e | (_ | next)), l1⟩
      · simp only [Prod.mk.injEq] at h
        have he : (Except.error e : Except Fault (Option α)) ≠ .error Fault.outOfFuel := by
          rw [h.1]; exact hr
        rw [updateBestCandidate_mono S S' cb best hS bc c _ _ hu he]
        exact Prod.ext h.1 h.2
      · rw [updateBestCandidate_mono S S' cb best hS bc c _ _ hu (by simp)]
        exact h
      · rw [updateBestCandidate_mono S S' cb best hS bc c _ _ hu (by simp)]
        simp only [Prod.mk.injEq] at h
        have := ih next (childLoop S cb best rest next).1 (childLoop S cb best rest next).2
          rfl (by rw [h.1]; exact hr)
        simp only [this]
        exact Prod.ext h.1 h.2

theorem getSubtreeBest_succ (cb : Callbacks α) (best : Nat) :
    ∀ (fuel : Nat) (x : α) (r : Except Fault (Option α)) (l : List (Event α)),
      getSubtreeBest fuel cb best x = (r, l) → r ≠ .error Fault.outOfFuel →
      getSubtreeBest (fuel + 1) cb best x = (r, l) := by
  intro fuel
  induction fuel with
  | zero =>
    intro x r l h hr
    simp only [getSubtreeBest, Prod.mk.injEq] at h
    exact absurd h.1.symm hr
  | succ fuel ih =>
    intro x r l h hr
    rw [getSubtreeBest] at h
    rw [getSubtreeBest]
    by_cases hv : cb.getVal x = best
    · simpa [hv] using h
    · simp only [hv, if_false] at h ⊢
      rcases hch : cb.getChildren x with ⟨n, (_ | _ | cs)⟩
      · simpa [hch] using h
      · simpa [hch] using h
      · simp only [hch] at h ⊢
        by_cases hn : n < 0
        · simpa [hn] using h
        · simp only [hn, if_false] at h ⊢
          cases hcp : cb.copy x with
          | none => simpa [hcp] using h
          | some bc =>
            simp only [hcp] at h ⊢
            by_cases hlen : cs.length < n.toNat
            · simpa [hlen] using h
            · simp only [hlen, if_false] at h ⊢
              generalize hu : childLoop (getSubtreeBest fuel cb best) cb best
                (cs.take n.toNat) bc = u at h
              rcases u with ⟨(e | r'), l1⟩
              · simp only [Prod.mk.injEq] at h
                have he : (Except.error e : Except Fault (Option α)) ≠
                    .error Fault.outOfFuel := by rw [h.1]; exact hr
                rw [childLoop_mono _ _ cb best ih _ bc _ _ hu he]
                exact Prod.ext h.1 h.2
              · rw [childLoop_mono _ _ cb best ih _ bc _ _ hu (by simp)]
                exact h

theorem getSubtreeBest_mono (cb : Callbacks α) (best : Nat) (fuel fuel' : Nat) (x : α)
    (r : Except Fault (Option α)) (l : List (Event α))
    (h : getSubtreeBest fuel cb best x = (r, l)) (hr : r ≠ .error Fault.outOfFuel)
    (hle : fuel ≤ fuel') : getSubtreeBest fuel' cb best x = (r, l) := by
  induction hle with
  | refl => exact h
  | step _ ih => exact getSubtreeBest_succ cb best _ x r l ih hr

theorem AgreeOn.mono {cb cb' : Callbacks α} {l l' : List (Event α)} (h : AgreeOn cb cb' l)
    (hsub : ∀ e ∈ l', e ∈ l) : AgreeOn cb cb' l' :=
  fun e he => h e (hsub e he)

theorem updateBestCandidate_frame (S S' : α → Run α) (cb cb' : Callbacks α) (best : Nat)
    (hS : ∀ c r l, S c = (r, l) → AgreeOn cb cb' l → S' c = (r, l))
    (bc : α) (c : Option α) (r : Except Fault (Option α)) (l : List (Event α))
    (h : updateBestCandidate S cb best bc c = (r, l)) (ha : AgreeOn cb cb' l) :
    updateBestCandidate S' cb' best bc c = (r, l) := by
  cases c with
  | none => simpa [updateBestCandidate] using h
  | some c =>
    rcases hsc : S c with ⟨r1, l1⟩
    rcases r1 with e | _ | nc
    · simp only [updateBestCandidate, hsc, Prod.mk.injEq] at h
      obtain ⟨rfl, rfl⟩ := h
      have hsc' := hS c _ l1 hsc (ha.mono (fun e he => by simp [he]))
      simp only [updateBestCandidate, hsc']
    · simp only [updateBestCandidate, hsc, Prod.mk.injEq] at h
      obtain ⟨rfl, rfl⟩ := h
      have hsc' := hS c _ l1 hsc (ha.mono (fun e he => by simp [he]))
      simp only [updateBestCandidate, hsc']
    · simp only [updateBestCandidate, hsc] at h
      by_cases hg : cb.getVal nc > cb.getVal bc ∧ cb.getVal nc ≤ best
      · simp only [hg, and_self, if_true, Prod.mk.injEq] at h
        obtain ⟨rfl, rfl⟩ := h
        have hsc' := hS c _ l1 hsc (ha.mono (fun e he => by simp [he]))
        have hbc : cb'.getVal bc = cb.getVal bc := ha (Event.value bc) (by simp)
        have hnc : cb'.getVal nc = cb.getVal nc := ha (Event.value nc) (by simp)
        simp only [updateBestCandidate, hsc', hbc, hnc, hg, and_self, if_true]
      · simp only [hg, if_false, Prod.mk.injEq] at h
        obtain ⟨rfl, rfl⟩ := h
        have hsc' := hS c _ l1 hsc (ha.mono (fun e he => by simp [he]))
        have hbc : cb'.getVal bc = cb.getVal bc := ha (Event.value bc) (by simp)
        have hnc : cb'.getVal nc = cb.getVal nc := ha (Event.value nc) (by simp)
        simp only [updateBestCandidate, hsc', hbc, hnc, hg, if_false]

theorem childLoop_frame (S S' : α → Run α) (cb cb' : Callbacks α) (best : Nat)
    (hS : ∀ c r l, S c = (r, l) → AgreeOn cb cb' l → S' c = (r, l)) :
    ∀ (cs : List (Option α)) (bc : α) (r : Except Fault (Option α)) (l : List (Event α)),
      childLoop S cb best cs bc = (r, l) → AgreeOn cb cb' l →
      childLoop S' cb' best cs bc = (r, l) := by
  intro cs
  induction cs with
  | nil => intro bc r l h _; simpa [childLoop] using h
  | cons c rest ih =>
    intro bc r l h ha
    rw [childLoop] at h
    rw [childLoop]
    by_cases hv : cb.getVal bc = best
    · simp only [hv, if_true, Prod.mk.injEq] at h
      obtain ⟨rfl, rfl⟩ := h
      have hbc : cb'.getVal bc = cb.getVal bc := ha (Event.value bc) (by simp)
      simp only [hbc, hv, if_true]
    · simp only [hv, if_false] at h
      rcases hu : updateBestCandidate S cb best bc c with ⟨u, l1⟩
      simp only [hu] at h
      rcases u with e | _ | next
      · simp only [Prod.mk.injEq] at h
        obtain ⟨rfl, rfl⟩ := h
        have hbc : cb'.getVal bc = cb.getVal bc := ha (Event.value bc) (by simp)
        rw [hbc, if_neg hv, updateBestCandidate_frame S S' cb cb' best hS bc c _ l1 hu
          (ha.mono (fun e he => by simp [he]))]
      · simp only [Prod.mk.injEq] at h
        obtain ⟨rfl, rfl⟩ := h
        have hbc : cb'.getVal bc = cb.getVal bc := ha (Event.value bc) (by simp)
        rw [hbc, if_neg hv, updateBestCandidate_frame S S' cb cb' best hS bc c _ l1 hu
          (ha.mono (fun e he => by simp [he]))]
      · simp only [Prod.mk.injEq] at h
        obtain ⟨rfl, rfl⟩ := h
        have hbc : cb'.getVal bc = cb.getVal bc := ha (Event.value bc) (by simp)
        rw [hbc, if_neg hv, updateBestCandidate_frame S S' cb cb' best hS bc c _ l1 hu
          (ha.mono (fun e he => by simp [he]))]
        simp only [ih next _ _ rfl (ha.mono (fun e he => by simp [he]))]

theorem getSubtreeBest_frame (cb cb' : Callbacks α) (best : Nat) :
    ∀ (fuel : Nat) (x : α) (r : Except Fault (Option α)) (l : List (Event α)),
      getSubtreeBest fuel cb best x = (r, l) → AgreeOn cb cb' l →
      getSubtreeBest fuel cb' best x = (r, l) := by
  intro fuel
  induction fuel with
  | zero => intro x r l h _; simpa [getSubtreeBest] using h
  | succ fuel ih =>
    intro x r l h ha
    rw [getSubtreeBest] at h
    rw [getSubtreeBest]
    by_cases hv : cb.getVal x = best
    · simp only [hv, if_true, Prod.mk.injEq] at h
      obtain ⟨rfl, rfl⟩ := h
      have h1 : cb'.getVal x = cb.getVal x := ha (Event.value x) (by simp)
      have h2 : cb'.copy x = cb.copy x := ha (Event.copy x) (by simp)
      simp only [h1, h2, hv, if_true]
    · simp only [hv, if_false] at h
      rcases hch : cb.getChildren x with ⟨n, (_ | _ | cs)⟩ <;> simp only [hch] at h
      · simp only [Prod.mk.injEq] at h
        obtain ⟨rfl, rfl⟩ := h
        have h1 : cb'.getVal x = cb.getVal x := ha (Event.value x) (by simp)
        have h2 : cb'.getChildren x = cb.getChildren x := ha (Event.children x) (by simp)
        simp only [h1, h2, hv, if_false, hch]
      · simp only [Prod.mk.injEq] at h
        obtain ⟨rfl, rfl⟩ := h
        have h1 : cb'.getVal x = cb.getVal x := ha (Event.value x) (by simp)
        have h2 : cb'.getChildren x = cb.getChildren x := ha (Event.children x) (by simp)
        have h3 : cb'.copy x = cb.copy x := ha (Event.copy x) (by simp)
        simp only [h1, h2, h3, hv, if_false, hch]
      · by_cases hn : n < 0
        · simp only [hn, if_true, Prod.mk.injEq] at h
          obtain ⟨rfl, rfl⟩ := h
          have h1 : cb'.getVal x = cb.getVal x := ha (Event.value x) (by simp)
          have h2 : cb'.getChildren x = cb.getChildren x := ha (Event.children x) (by simp)
          simp only [h1, h2, hv, if_false, hch, hn, if_true]
        · simp only [hn, if_false] at h
          cases hcp : cb.copy x with
          | none =>
            simp only [hcp] at h
            by_cases hn0 : n = 0
            · simp only [hn0, if_true, Prod.mk.injEq] at h
              obtain ⟨rfl, rfl⟩ := h
              have h1 : cb'.getVal x = cb.getVal x := ha (Event.value x) (by simp)
              have h2 : cb'.getChildren x = cb.getChildren x :=
                ha (Event.children x) (by simp)
              have h3 : cb'.copy x = cb.copy x := ha (Event.copy x) (by simp)
              simp only [h1, h2, h3, hv, if_false, hch, hn, hcp, hn0, if_true, lt_irrefl]
            · simp only [hn0, if_false, Prod.mk.injEq] at h
              obtain ⟨rfl, rfl⟩ := h
              have h1 : cb'.getVal x = cb.getVal x := ha (Event.value x) (by simp)
              have h2 : cb'.getChildren x = cb.getChildren x :=
                ha (Event.children x) (by simp)
              have h3 : cb'.copy x = cb.copy x := ha (Event.copy x) (by simp)
              simp only [h1, h2, h3, hv, if_false, hch, hn, hcp, hn0]
          | some bc =>
            simp only [hcp] at h
            by_cases hlen : cs.length < n.toNat
            · simp only [hlen, if_true, Prod.mk.injEq] at h
              obtain ⟨rfl, rfl⟩ := h
              have h1 : cb'.getVal x = cb.getVal x := ha (Event.value x) (by simp)
              have h2 : cb'.getChildren x = cb.getChildren x :=
                ha (Event.children x) (by simp)
              have h3 : cb'.copy x = cb.copy x := ha (Event.copy x) (by simp)
              simp only [h1, h2, h3, hv, if_false, hch, hn, hcp, hlen, if_true]
            · simp only [hlen, if_false] at h
              rcases hu : childLoop (getSubtreeBest fuel cb best) cb best
                (cs.take n.toNat) bc with ⟨u, l1⟩
              simp only [hu] at h
              rcases u with e | r'
              · simp only [Prod.mk.injEq] at h
                obtain ⟨rfl, rfl⟩ := h
                have h1 : cb'.getVal x = cb.getVal x := ha (Event.value x) (by simp)
                have h2 : cb'.getChildren x = cb.getChildren x :=
                  ha (Event.children x) (by simp)
                have h3 : cb'.copy x = cb.copy x := ha (Event.copy x) (by simp)
                simp only [h1, h2, h3, hv, if_false, hch, hn, hcp, hlen,
                  childLoop_frame _ _ cb cb' best ih _ bc _ l1 hu
                    (ha.mono (fun e he => by simp [he]))]
              · simp only [Prod.mk.injEq] at h
                obtain ⟨rfl, rfl⟩ := h
                have h1 : cb'.getVal x = cb.getVal x := ha (Event.value x) (by simp)
                have h2 : cb'.getChildren x = cb.getChildren x :=
                  ha (Event.children x) (by simp)
                have h3 : cb'.copy x = cb.copy x := ha (Event.copy x) (by simp)
                simp only [h1, h2, h3, hv, if_false, hch, hn, hcp, hlen,
                  childLoop_frame _ _ cb cb' best ih _ bc _ l1 hu
                    (ha.mono (fun e he => by simp [he]))]

/-! ## Claims about the generic engine -/

theorem getBest_eq (fuel : Nat) (cb : Callbacks α) (free : Option α → Unit) (best : Nat)
    (root : α) :
    getBest fuel (some root) (some cb.getChildren) (some cb.getVal) (some free)
      (some cb.copy) best = getSubtreeBest fuel cb best root := rfl

theorem demoTable_nonFailing (best : Nat) : NonFailing demoTable best demoRank := by
  refine ⟨fun x _ => ⟨x, rfl, rfl⟩, fun x _ _ => ?_⟩
  match x with
  | 0 => exact Or.inr ⟨[1, 2], rfl, by simp [demoRank]⟩
  | 1 => exact Or.inr ⟨[3], rfl, by simp [demoRank]⟩
  | _ + 2 => exact Or.inl ⟨0, rfl⟩

theorem demoVal_le (z : Nat) : demoVal z ≤ 5 := by
  match z with
  | 0 => decide
  | 1 => decide
  | 2 => decide
  | 3 => decide
  | _ + 4 => simp [demoVal]

/-- C3, as stated, fails: in the numbered tree with target 3 the search returns node 1, of
value 2, although it applied the value callback to node 3, of value 5; the callbacks do
not fail and the tree is finite. -/
theorem getBest_value_below_visited :
    NonFailing demoTable 3 demoRank ∧
    ∃ l, getBest 3 (some 0) (some demoChildren) (some demoVal) (some demoFree)
        (some demoCopy) 3 = (.ok (some 1), l) ∧
      Event.value 3 ∈ l ∧ demoVal 1 < demoVal 3 :=
  ⟨demoTable_nonFailing 3, _, rfl, by simp, by decide⟩

/-- C3, amended: for callbacks that do not fail and span a tree of finite depth, `getBest`
returns a node, and when every node the value callback was applied to during the search
has a value at most the target, the value of the returned node is at least the value of
each of them. -/
theorem getBest_value_ge_visited (cb : Callbacks α) (free : Option α → Unit) (best : Nat)
    (rank : α → Nat) (fuel : Nat) (root : α)
    (hnf : NonFailing cb best rank) (hfuel : rank root < fuel) :
    ∃ r l, getBest fuel (some root) (some cb.getChildren) (some cb.getVal) (some free)
        (some cb.copy) best = (.ok (some r), l) ∧
      ((∀ z, Event.value z ∈ l → cb.getVal z ≤ best) →
        ∀ z, Event.value z ∈ l → cb.getVal z ≤ cb.getVal r) := by
  obtain ⟨r, l, hrun, hb⟩ := getSubtreeBest_bounded hnf fuel root trivial hfuel
  exact ⟨r, l, hrun, hb.2.2⟩

/-- The amended C3 at the numbered tree, root 0, target 5. -/
theorem getBest_value_ge_visited_witness :
    ∃ r l, getBest 3 (some 0) (some demoChildren) (some demoVal) (some demoFree)
        (some demoCopy) 5 = (.ok (some r), l) ∧
      ((∀ z, Event.value z ∈ l → demoVal z ≤ 5) →
        ∀ z, Event.value z ∈ l → demoVal z ≤ demoVal r) :=
  getBest_value_ge_visited demoTable demoFree 5 demoRank 3 0 (demoTable_nonFailing 5)
    (by decide)

/-- C4, as stated, fails: searching from the leaf 2 of the numbered tree, whose value is 5,
with target 3 returns that node, of value 5 > 3; the callbacks do not fail. -/
theorem getBest_value_above_target :
    NonFailing demoTable 3 demoRank ∧
    ∃ l, getBest 1 (some 2) (some demoChildren) (some demoVal) (some demoFree)
        (some demoCopy) 3 = (.ok (some 2), l) ∧ 3 < demoVal 2 :=
  ⟨demoTable_nonFailing 3, _, rfl, by decide⟩

/-- C4, amended: for callbacks that do not fail and span a tree of finite depth, and a root
whose own value is at most the target, `getBest` returns a node whose value is at most the
target. -/
theorem getBest_value_le_target (cb : Callbacks α) (free : Option α → Unit) (best : Nat)
    (rank : α → Nat) (fuel : Nat) (root : α)
    (hnf : NonFailing cb best rank) (hfuel : rank root < fuel)
    (hroot : cb.getVal root ≤ best) :
    ∃ r l, getBest fuel (some root) (some cb.getChildren) (some cb.getVal) (some free)
        (some cb.copy) best = (.ok (some r), l) ∧ cb.getVal r ≤ best := by
  obtain ⟨r, l, hrun, hb⟩ := getSubtreeBest_bounded hnf fuel root trivial hfuel
  exact ⟨r, l, hrun, hb.2.1 hroot⟩

/-- The amended C4 at the numbered tree, root 0, target 3. -/
theorem getBest_value_le_target_witness :
    ∃ r l, getBest 3 (some 0) (some demoChildren) (some demoVal) (some demoFree)
        (some demoCopy) 3 = (.ok (some r), l) ∧ demoVal r ≤ 3 :=
  getBest_value_le_target demoTable demoFree 3 demoRank 3 0 (demoTable_nonFailing 3)
    (by decide) (by decide)

/-- C5: for callbacks that do not fail and span a tree of finite depth in which no value
exceeds the target, `getBest` returns a copy `r` of the node `y` that comes first, in
depth-first left-to-right pre-order of the tree, among the nodes whose value is that of
`r`; this value is the target or the greatest value in the tree. -/
theorem getBest_first_in_preorder (cb : Callbacks α) (free : Option α → Unit) (best : Nat)
    (rank : α → Nat) (fuel : Nat) (root : α)
    (hnf : NonFailing cb best rank) (hfuel : rank root < fuel)
    (hval : ∀ z, cb.getVal z ≤ best) :
    ∃ r l y, getBest fuel (some root) (some cb.getChildren) (some cb.getVal) (some free)
        (some cb.copy) best = (.ok (some r), l) ∧
      (preorder fuel cb root).find? (fun z => decide (cb.getVal z = cb.getVal r)) = some y ∧
      cb.copy y = some r ∧
      (cb.getVal r = best ∨ ∀ z ∈ preorder fuel cb root, cb.getVal z ≤ cb.getVal r) := by
  obtain ⟨r, l, hrun, y, _, _, hcopy, hH⟩ := getSubtreeBest_delivers hnf fuel root trivial hfuel
  obtain ⟨hfind, hmax⟩ := hH (fun z _ => hval z)
  exact ⟨r, l, y, hrun, hfind, hcopy, hmax⟩

/-- C5 at the numbered tree, root 0, target 5. -/
theorem getBest_first_in_preorder_witness :
    ∃ r l y, getBest 3 (some 0) (some demoChildren) (some demoVal) (some demoFree)
        (some demoCopy) 5 = (.ok (some r), l) ∧
      (preorder 3 demoTable 0).find? (fun z => decide (demoVal z = demoVal r)) = some y ∧
      demoCopy y = some r ∧
      (demoVal r = 5 ∨ ∀ z ∈ preorder 3 demoTable 0, demoVal z ≤ demoVal r) :=
  getBest_first_in_preorder demoTable demoFree 5 demoRank 3 0 (demoTable_nonFailing 5)
    (by decide) demoVal_le

/-- C6: let the walk over the first children `pre` of a node, started from the candidate
`bc0`, end with a candidate `bc` whose value is the target. Then take any node whose children
are `pre` followed by at least one more sibling, under any callbacks `cb'` that answer as
`cb` does on the applications made during that walk, so that the later siblings and what
lies below them are arbitrary: `getSubtreeBest` returns `bc`, and its log consists of the
three applications to the node itself, the log of the walk over `pre`, at most one more
value check of `bc`, and the release of every child. No value, children or copy callback is
applied to a later sibling or below it. -/
theorem getSubtreeBest_short_circuit (cb : Callbacks α) (best : Nat) (fuel : Nat)
    (bc0 bc : α) (pre : List (Option α)) (l : List (Event α))
    (hpre : childLoop (getSubtreeBest fuel cb best) cb best pre bc0 = (.ok (some bc), l))
    (htarget : cb.getVal bc = best) :
    ∃ tail, (tail = [] ∨ tail = [Event.value bc]) ∧
      ∀ (cb' : Callbacks α) (current : α) (post : List (Option α)),
        post ≠ [] → AgreeOn cb cb' (l ++ tail) →
        cb'.getVal current ≠ best → cb'.copy current = some bc0 →
        cb'.getChildren current =
          (((pre ++ post).length : Int), ChildPtr.arr (pre ++ post)) →
        getSubtreeBest (fuel + 1) cb' best current =
          (.ok (some bc), Event.value current :: Event.children current ::
            Event.copy current :: (l ++ tail ++ (pre ++ post).map Event.free)) := by
  obtain ⟨tail, htail, hpost⟩ :=
    childLoop_append_target (getSubtreeBest fuel cb best) cb best pre bc0 bc l hpre htarget
  refine ⟨tail, htail, fun cb' current post hp ha hv hc hch => ?_⟩
  have hloop := childLoop_frame (getSubtreeBest fuel cb best) (getSubtreeBest fuel cb' best)
    cb cb' best (getSubtreeBest_frame cb cb' best fuel) (pre ++ post) bc0 _ _
    (hpost post hp) ha
  have h0 : ¬ (((pre ++ post).length : Int) < 0) := by omega
  simp only [getSubtreeBest, hv, hch, hc, if_false, h0, Int.toNat_ofNat, lt_irrefl,
    List.take_length, hloop]

/-- C6 at node 0 of the numbered tree, target 5: after its first child the candidate is
node 3, of value 5. -/
theorem getSubtreeBest_short_circuit_witness :
    ∃ tail, (tail = [] ∨ tail = [Event.value 3]) ∧
      ∀ (cb' : Callbacks Nat) (current : Nat) (post : List (Option Nat)),
        post ≠ [] →
        AgreeOn demoTable cb' ([Event.value 0, Event.value 0, Event.value 1,
          Event.children 1, Event.copy 1, Event.value 1, Event.value 1, Event.value 3,
          Event.copy 3, Event.value 3, Event.free (some 1), Event.free (some 3),
          Event.value 3, Event.free (some 0)] ++ tail) →
        cb'.getVal current ≠ 5 → cb'.copy current = some 0 →
        cb'.getChildren current =
          ((([some 1] ++ post).length : Int), ChildPtr.arr ([some 1] ++ post)) →
        getSubtreeBest (2 + 1) cb' 5 current =
          (.ok (some 3), Event.value current :: Event.children current ::
            Event.copy current :: ([Event.value 0, Event.value 0, Event.value 1,
              Event.children 1, Event.copy 1, Event.value 1, Event.value 1, Event.value 3,
              Event.copy 3, Event.value 3, Event.free (some 1), Event.free (some 3),
              Event.value 3, Event.free (some 0)] ++ tail ++
              ([some 1] ++ post).map Event.free)) :=
  getSubtreeBest_short_circuit demoTable 5 2 0 3 [some 1] _ rfl rfl

/-! ## Lists -/

theorem countP_set_add (p : Nat → Bool) :
    ∀ (l : List Nat) (j v : Nat), j < l.length →
      (l.set j v).countP p + (if p (l.getD j 0) then 1 else 0) =
        l.countP p + (if p v then 1 else 0) := by
  intro l
  induction l with
  | nil => intro j v h; simp at h
  | cons a t ih =>
    intro j v h
    cases j with
    | zero =>
      simp only [List.set_cons_zero, List.countP_cons, List.getD_cons_zero]
      omega
    | succ j =>
      have := ih j v (by simpa using h)
      simp only [List.set_cons_succ, List.countP_cons, List.getD_cons_succ]
      omega

theorem sum_map_set_add {β : Type} (f : β → Nat) (d : β) :
    ∀ (l : List β) (i : Nat) (a : β), i < l.length →
      ((l.set i a).map f).sum + f (l.getD i d) = (l.map f).sum + f a := by
  intro l
  induction l with
  | nil => intro i a h; simp at h
  | cons x t ih =>
    intro i a h
    cases i with
    | zero =>
      simp only [List.set_cons_zero, List.map_cons, List.sum_cons, List.getD_cons_zero]
      omega
    | succ i =>
      have := ih i a (by simpa using h)
      simp only [List.set_cons_succ, List.map_cons, List.sum_cons, List.getD_cons_succ]
      omega

theorem getD_set_row (g : List (List Nat)) (i i' : Nat) (r : List Nat) (h : i < g.length) :
    (g.set i r).getD i' [] = if i' = i then r else g.getD i' [] := by
  simp only [List.getD_eq_getElem?_getD, List.getElem?_set]
  by_cases h1 : i = i'
  · subst h1; simp [h]
  · have h2 : ¬ i' = i := fun e => h1 e.symm
    simp [h1, h2]

theorem getD_set_cell (r : List Nat) (j j' v : Nat) (h : j < r.length) :
    (r.set j v).getD j' 0 = if j' = j then v else r.getD j' 0 := by
  simp only [List.getD_eq_getElem?_getD, List.getElem?_set]
  by_cases h1 : j = j'
  · subst h1; simp [h]
  · have h2 : ¬ j' = j := fun e => h1 e.symm
    simp [h1, h2]

theorem ext_getD {β : Type} (d : β) (l₁ l₂ : List β) (hlen : l₁.length = l₂.length)
    (h : ∀ i < l₁.length, l₁.getD i d = l₂.getD i d) : l₁ = l₂ := by
  apply List.ext_getElem hlen
  intro i h1 h2
  have := h i h1
  rwa [List.getD_eq_getElem _ _ h1, List.getD_eq_getElem _ _ h2] at this

theorem sum_countP_le (N : Nat) (p : Nat → Bool) :
    ∀ g : List (List Nat), (∀ row ∈ g, row.length = N) →
      (g.map fun row => row.countP p).sum ≤ g.length * N := by
  intro g
  induction g with
  | nil => intro _; simp
  | cons r t ih =>
    intro h
    have h1 : r.countP p ≤ N := by
      rw [← h r (List.mem_cons_self _ _)]; exact List.countP_le_length p
    have h2 := ih (fun row hrow => h row (List.mem_cons_of_mem _ hrow))
    simp only [List.map_cons, List.sum_cons, List.length_cons]
    nlinarith

theorem sum_countP_full (N : Nat) (p : Nat → Bool) :
    ∀ g : List (List Nat), (∀ row ∈ g, row.length = N ∧ ∀ v ∈ row, p v = true) →
      (g.map fun row => row.countP p).sum = g.length * N := by
  intro g
  induction g with
  | nil => intro _; simp
  | cons r t ih =>
    intro h
    have h1 : r.countP p = N := by
      rw [← (h r (List.mem_cons_self _ _)).1]
      exact List.countP_eq_length.2 (h r (List.mem_cons_self _ _)).2
    have h2 := ih (fun row hrow => h row (List.mem_cons_of_mem _ hrow))
    simp only [List.map_cons, List.sum_cons, List.length_cons, h1, h2]
    ring

/-! ## Boards -/

theorem setCell_size (b : Board) (i j v : Nat) : (setCell b i j v).size = b.size := rfl

theorem getCellValue_setCell (b : Board) (i j v i' j' : Nat) (hi : i < b.grid.length)
    (hj : j < (b.grid.getD i []).length) :
    getCellValue (setCell b i j v) i' j' =
      if i' = i ∧ j' = j then v else getCellValue b i' j' := by
  show ((b.grid.set i ((b.grid.getD i []).set j v)).getD i' []).getD j' 0 = _
  rw [getD_set_row _ _ _ _ hi]
  by_cases h : i' = i
  · subst h
    rw [if_pos rfl, getD_set_cell _ _ _ _ hj]
    simp [getCellValue]
  · rw [if_neg h, if_neg (fun hc => h hc.1)]
    rfl

theorem row_length (b : Board) (hrows : b.grid.length = b.size)
    (hcols : ∀ row ∈ b.grid, row.length = b.size) (i : Nat) (hi : i < b.size) :
    (b.grid.getD i []).length = b.size := by
  have h : i < b.grid.length := by omega
  rw [List.getD_eq_getElem _ _ h]
  exact hcols _ (List.getElem_mem _)

theorem countFilled_le (b : Board) (hrows : b.grid.length = b.size)
    (hcols : ∀ row ∈ b.grid, row.length = b.size) : countFilled b ≤ b.size * b.size := by
  have := sum_countP_le b.size (fun v => v != 0) b.grid hcols
  rw [hrows] at this
  exact this

theorem countFilled_setCell (b : Board) (hrows : b.grid.length = b.size)
    (hcols : ∀ row ∈ b.grid, row.length = b.size) (i j v : Nat) (hi : i < b.size)
    (hj : j < b.size) :
    countFilled (setCell b i j v) + (if getCellValue b i j != 0 then 1 else 0) =
      countFilled b + (if v != 0 then 1 else 0) := by
  have hi' : i < b.grid.length := by omega
  have hj' : j < (b.grid.getD i []).length := by rw [row_length b hrows hcols i hi]; exact hj
  have h1 := sum_map_set_add (fun row : List Nat => row.countP (fun v => v != 0)) []
    b.grid i ((b.grid.getD i []).set j v) hi'
  have h2 := countP_set_add (fun v => v != 0) (b.grid.getD i []) j v hj'
  simp only [countFilled, setCell, getCellValue] at h1 h2 ⊢
  omega

theorem setCell_wellFormed (b : Board) (i j v : Nat) (hwf : WellFormed b) (hi : i < b.size)
    (hj : j < b.size) (h0 : getCellValue b i j = 0) :
    WellFormed (setCell b i j v) ∧
      countFilled (setCell b i j v) = countFilled b + (if v != 0 then 1 else 0) := by
  obtain ⟨hpos, hrows, hcols, hfc, hfit⟩ := hwf
  have hrows' : (setCell b i j v).grid.length = b.size := by
    simp [setCell, hrows]
  have hcols' : ∀ row ∈ (setCell b i j v).grid, row.length = b.size := by
    intro row hrow
    rcases List.mem_or_eq_of_mem_set hrow with h | h
    · exact hcols row h
    · rw [h, List.length_set]; exact row_length b hrows hcols i hi
  have hcount := countFilled_setCell b hrows hcols i j v hi hj
  simp only [h0, bne_self_eq_false, Bool.false_eq_true, if_false, add_zero] at hcount
  have hle := countFilled_le (setCell b i j v) hrows' hcols'
  rw [setCell_size] at hle
  refine ⟨⟨hpos, hrows', hcols', ?_, hfit⟩, hcount⟩
  by_cases hv : v = 0
  · subst hv
    have hc0 : countFilled (setCell b i j 0) = countFilled b := by simpa using hcount
    rw [hc0]
    simp [setCell, hfc]
  · have hv' : (v != 0) = true := by simpa using hv
    have hc1 : countFilled (setCell b i j v) = countFilled b + 1 := by
      simpa [hv'] using hcount
    rw [hc1] at hle ⊢
    have hmod : (countFilled b + 1) % 4294967296 = countFilled b + 1 :=
      Nat.mod_eq_of_lt (by omega)
    simp only [setCell, ne_eq, hv, not_false_eq_true, if_true, hfc, hmod]

theorem getCellValue_newBoard (N i j : Nat) : getCellValue (newBoard N) i j = 0 := by
  simp only [getCellValue, newBoard, List.getD_eq_getElem?_getD, List.getElem?_replicate]
  by_cases hi : i < N
  · by_cases hj : j < N <;> simp [hi, hj, List.getElem?_replicate]
  · simp [hi]

theorem newBoard_wellFormed (N : Nat) (hpos : 0 < N) (hfit : N * N < 4294967296) :
    WellFormed (newBoard N) := by
  refine ⟨hpos, by simp [newBoard], ?_, ?_, hfit⟩
  · intro row hrow
    simp only [newBoard, List.mem_replicate] at hrow
    rw [hrow.2]; simp [newBoard]
  · simp [newBoard, countFilled, List.countP_replicate]

theorem copiedUpTo_step (b c : Board) (i n : Nat) (h : CopiedUpTo b c i n) (hi : i < b.size)
    (hn : n < b.size) : CopiedUpTo b (setCell c i n (getCellValue b i n)) i (n + 1) := by
  obtain ⟨hwf, hsize, hcells⟩ := h
  have h0 : getCellValue c i n = 0 := by
    rw [hcells i hi n hn, if_neg (by omega)]
  have hwf' := (setCell_wellFormed c i n (getCellValue b i n) hwf (by omega) (by omega) h0).1
  refine ⟨hwf', by rw [setCell_size, hsize], ?_⟩
  intro i' hi' j' hj'
  obtain ⟨_, hrows, hcols, _, _⟩ := hwf
  rw [getCellValue_setCell c i n _ i' j' (by omega)
    (by rw [row_length c hrows hcols i (by omega)]; omega), hcells i' hi' j' hj']
  by_cases h1 : i' = i ∧ j' = n
  · obtain ⟨rfl, rfl⟩ := h1
    simp
  · rw [if_neg h1]
    by_cases h2 : i' < i ∨ (i' = i ∧ j' < n)
    · rw [if_pos h2, if_pos (by omega)]
    · rw [if_neg h2, if_neg (by omega)]

theorem copiedUpTo_row (b c : Board) (i : Nat) (h : CopiedUpTo b c i 0) (hi : i < b.size) :
    ∀ n, n ≤ b.size →
      CopiedUpTo b ((List.range n).foldl
        (fun c j => setCell c i j (getCellValue b i j)) c) i n := by
  intro n
  induction n with
  | zero => intro _; simpa using h
  | succ n ih =>
    intro hn
    rw [List.range_succ, List.foldl_append]
    exact copiedUpTo_step b _ i n (ih (by omega)) hi (by omega)

theorem copiedUpTo_next (b c : Board) (i : Nat) (h : CopiedUpTo b c i b.size) :
    CopiedUpTo b c (i + 1) 0 := by
  obtain ⟨hwf, hsize, hcells⟩ := h
  refine ⟨hwf, hsize, ?_⟩
  intro i' hi' j' hj'
  rw [hcells i' hi' j' hj']
  by_cases h2 : i' < i ∨ (i' = i ∧ j' < b.size)
  · rw [if_pos h2, if_pos (by omega)]
  · rw [if_neg h2, if_neg (by omega)]

theorem copiedUpTo_rows (b : Board) (hwf : WellFormed b) :
    ∀ m, m ≤ b.size →
      CopiedUpTo b ((List.range m).foldl
        (fun c i => (List.range b.size).foldl
          (fun c j => setCell c i j (getCellValue b i j)) c) (newBoard b.size)) m 0 := by
  intro m
  induction m with
  | zero =>
    intro _
    refine ⟨newBoard_wellFormed b.size hwf.1 hwf.2.2.2.2, rfl, ?_⟩
    intro i' _ j' _
    rw [List.range_zero, List.foldl_nil, getCellValue_newBoard, if_neg (by omega)]
  | succ m ih =>
    intro hm
    rw [List.range_succ, List.foldl_append]
    exact copiedUpTo_next b _ m (copiedUpTo_row b _ m (ih (by omega)) (by omega) b.size
      (le_refl _))

theorem board_ext (b c : Board) (hb : WellFormed b) (hc : WellFormed c)
    (hsize : c.size = b.size)
    (hcells : ∀ i < b.size, ∀ j < b.size, getCellValue c i j = getCellValue b i j) :
    c = b := by
  obtain ⟨_, hrows, hcols, hfc, _⟩ := hb
  obtain ⟨_, hrows', hcols', hfc', _⟩ := hc
  have hgrid : c.grid = b.grid := by
    apply ext_getD [] _ _ (by omega)
    intro i hi
    have hi' : i < b.size := by omega
    apply ext_getD 0 _ _
      (by rw [row_length c hrows' hcols' i (by omega), row_length b hrows hcols i hi', hsize])
    intro j hj
    rw [row_length c hrows' hcols' i (by omega)] at hj
    exact hcells i hi' j (by omega)
  have hcount : countFilled c = countFilled b := by simp only [countFilled, hgrid]
  cases b; cases c
  simp only [Board.mk.injEq]
  simp only at hsize hgrid hfc hfc' hcount
  exact ⟨hsize, hgrid, by omega⟩

theorem copyBoard_eq (b : Board) (hwf : WellFormed b) : copyBoard b = b := by
  obtain ⟨hwf', hsize, hcells⟩ := copiedUpTo_rows b hwf b.size (le_refl _)
  apply board_ext b _ hwf hwf' hsize
  intro i hi j hj
  have := hcells i hi j hj
  rw [if_pos (Or.inl hi)] at this
  exact this

theorem nextEmptyBlock_none (b : Board) : nextEmptyBlock b = none ↔ Full b := by
  simp only [nextEmptyBlock, List.findSome?_eq_none_iff, List.mem_range, Option.map_eq_none',
    List.find?_eq_none, beq_iff_eq, Full]

theorem nextEmptyBlock_some (b : Board) (i j : Nat) (h : nextEmptyBlock b = some (i, j)) :
    i < b.size ∧ j < b.size ∧ getCellValue b i j = 0 := by
  obtain ⟨i', hi', hf⟩ := List.exists_of_findSome?_eq_some h
  simp only [Option.map_eq_some', Prod.mk.injEq] at hf
  obtain ⟨j', hfind, rfl, rfl⟩ := hf
  have h1 := List.mem_of_find?_eq_some hfind
  have h2 := List.find?_some hfind
  exact ⟨List.mem_range.1 hi', List.mem_range.1 h1, by simpa using h2⟩

theorem sqrtDown_eq_sqrt (n : Nat) : ∀ k, Nat.sqrt n ≤ k → sqrtDown n k = Nat.sqrt n := by
  intro k
  induction k with
  | zero => intro h; simp [sqrtDown]; omega
  | succ k ih =>
    intro h
    rw [sqrtDown]
    by_cases hk : (k + 1) * (k + 1) ≤ n
    · rw [if_pos hk]
      have : k + 1 ≤ Nat.sqrt n := Nat.le_sqrt.2 hk
      omega
    · rw [if_neg hk]
      apply ih
      by_contra hcon
      have : Nat.sqrt n = k + 1 := by omega
      exact hk (this ▸ Nat.sqrt_le n)

/-- The function `usqrt` is the integer square root. -/
theorem usqrt_eq_sqrt (n : Nat) : usqrt n = Nat.sqrt n :=
  sqrtDown_eq_sqrt n n (Nat.sqrt_le_self n)

theorem usqrt_sq (s : Nat) : usqrt (s * s) = s := by
  rw [usqrt_eq_sqrt, Nat.sqrt_eq]

theorem mem_block_iff (s i k : Nat) (hs : 0 < s) :
    (i - i % s ≤ k ∧ k < i - i % s + s) ↔ k / s = i / s := by
  have h1 := Nat.div_add_mod i s
  have h2 := Nat.mod_lt i hs
  have h3 := Nat.div_add_mod k s
  have h4 := Nat.mod_lt k hs
  constructor
  · intro ⟨hlo, hhi⟩
    apply Nat.div_eq_of_lt_le
    · rw [Nat.mul_comm]; omega
    · rw [Nat.add_mul, Nat.mul_comm]; omega
  · intro h
    rw [h] at h3
    omega

theorem checkCell_iff (b : Board) (i j v : Nat) (hs : 0 < usqrt b.size) :
    checkCell b i j v = true ↔
      (∀ k < b.size, getCellValue b i k ≠ v ∧ getCellValue b k j ≠ v) ∧
      (∀ k l, k / usqrt b.size = i / usqrt b.size → l / usqrt b.size = j / usqrt b.size →
        getCellValue b k l ≠ v) := by
  simp only [checkCell, Bool.and_eq_true, List.all_eq_true, List.mem_range, bne_iff_ne, ne_eq,
    List.mem_range'_1, mem_block_iff _ _ _ hs]
  constructor
  · intro ⟨h1, h2⟩; exact ⟨h1, fun k l hk hl => h2 k hk l hl⟩
  · intro ⟨h1, h2⟩; exact ⟨h1, fun k hk l hl => h2 k l hk hl⟩

theorem countFilled_full (b : Board) (hrows : b.grid.length = b.size)
    (hcols : ∀ row ∈ b.grid, row.length = b.size) (hfull : Full b) :
    countFilled b = b.size * b.size := by
  have := sum_countP_full b.size (fun v => v != 0) b.grid (by
    intro row hrow
    refine ⟨hcols row hrow, ?_⟩
    intro v hv
    obtain ⟨i, hi, rfl⟩ := List.getElem_of_mem hrow
    obtain ⟨j, hj, rfl⟩ := List.getElem_of_mem hv
    have hlen := hcols _ hrow
    have := hfull i (by omega) j (by omega)
    simp only [getCellValue, List.getD_eq_getElem _ _ hi, List.getD_eq_getElem _ _ hj] at this
    simpa using this)
  rw [hrows] at this
  exact this

theorem legal_setCell (b : Board) (i j v : Nat) (hwf : WellFormed b) (hleg : Legal b)
    (hi : i < b.size) (hj : j < b.size) (hs : 0 < usqrt b.size)
    (hck : checkCell b i j v = true) : Legal (setCell b i j v) := by
  obtain ⟨_, hrows, hcols, _, _⟩ := hwf
  obtain ⟨hline, hblock⟩ := (checkCell_iff b i j v hs).1 hck
  have hget : ∀ a c, getCellValue (setCell b i j v) a c =
      if a = i ∧ c = j then v else getCellValue b a c := fun a c =>
    getCellValue_setCell b i j v a c (by omega) (by rw [row_length b hrows hcols i hi]; omega)
  intro a ha c hc a' ha' c' hc' ⟨hnz, heq, hrel⟩
  rw [setCell_size] at ha hc ha' hc'
  rw [hget] at hnz heq
  rw [hget a' c'] at heq
  have hrel' : Related b a c a' c' := hrel
  by_cases h1 : a = i ∧ c = j
  · by_cases h2 : a' = i ∧ c' = j
    · exact ⟨h1.1.trans h2.1.symm, h1.2.trans h2.2.symm⟩
    · exfalso
      rw [if_pos h1, if_neg h2] at heq
      obtain ⟨rfl, rfl⟩ := h1
      rcases hrel' with h | h | ⟨h, h'⟩
      · subst h; exact (hline c' hc').1 heq.symm
      · subst h; exact (hline a' ha').2 heq.symm
      · exact hblock a' c' h.symm h'.symm heq.symm
  · by_cases h2 : a' = i ∧ c' = j
    · exfalso
      rw [if_neg h1, if_pos h2] at heq
      obtain ⟨rfl, rfl⟩ := h2
      rcases hrel' with h | h | ⟨h, h'⟩
      · subst h; exact (hline c hc).1 heq
      · subst h; exact (hline a ha).2 heq
      · exact hblock a c h h' heq
    · rw [if_neg h1] at hnz heq
      rw [if_neg h2] at heq
      exact hleg a ha c hc a' ha' c' hc' ⟨hnz, heq, hrel'⟩

theorem mem_assignBoardChildren (b : Board) (i j : Nat) (c : Board) :
    c ∈ assignBoardChildren b i j ↔
      ∃ v, 1 ≤ v ∧ v ≤ b.size ∧ checkCell b i j v = true ∧
        c = setCell (copyBoard b) i j v := by
  simp only [assignBoardChildren, List.mem_filterMap, List.mem_range'_1]
  constructor
  · rintro ⟨v, ⟨h1, h2⟩, h3⟩
    by_cases hck : checkCell b i j v = true
    · rw [if_pos hck] at h3
      exact ⟨v, h1, by omega, hck, (Option.some.inj h3).symm⟩
    · rw [if_neg hck] at h3; cases h3
  · rintro ⟨v, h1, h2, hck, rfl⟩
    exact ⟨v, ⟨h1, by omega⟩, by rw [if_pos hck]⟩

theorem sudoku_tame (N : Nat) (Q : Board → Prop)
    (hQ : ∀ b i j v, WellFormed b → b.size = N → Q b → nextEmptyBlock b = some (i, j) →
      1 ≤ v → v ≤ N → checkCell b i j v = true → Q (setCell b i j v)) :
    Tame sudokuCallbacks (N * N) (fun b => WellFormed b ∧ b.size = N ∧ Q b) emptyCells := by
  constructor
  · rintro b ⟨hwf, _, _⟩
    exact ⟨b, by simp [sudokuCallbacks, copyNode, copyBoard_eq b hwf], rfl⟩
  · rintro b ⟨hwf, hsize, hq⟩ hval
    subst hsize
    right
    have hwf' := hwf
    obtain ⟨_, hrows, hcols, hfc, _⟩ := hwf'
    rcases hne : nextEmptyBlock b with _ | ⟨i, j⟩
    · exfalso
      apply hval
      have := countFilled_full b hrows hcols ((nextEmptyBlock_none b).1 hne)
      simp only [sudokuCallbacks, getFilledCells, hfc, this]
    · obtain ⟨hi, hj, h0⟩ := nextEmptyBlock_some b i j hne
      refine ⟨assignBoardChildren b i j, by simp [sudokuCallbacks, getBoardChildren, hne], ?_⟩
      intro c hc
      obtain ⟨v, hv1, hv2, hck, rfl⟩ := (mem_assignBoardChildren b i j c).1 hc
      rw [copyBoard_eq b hwf]
      obtain ⟨hwfc, hcount⟩ := setCell_wellFormed b i j v hwf hi hj h0
      have hv' : (v != 0) = true := by simp; omega
      simp only [hv', if_true] at hcount
      have hle := countFilled_le (setCell b i j v) hwfc.2.1 hwfc.2.2.1
      rw [setCell_size] at hle
      refine ⟨⟨hwfc, setCell_size b i j v, hQ b i j v hwf rfl hq hne hv1 hv2 hck⟩, ?_⟩
      simp only [emptyCells, setCell_size, hcount]
      omega

/-! ## Claims about the Sudoku search -/

theorem getSubtreeBest_stable (cb : Callbacks α) (best : Nat) (fuel fuel' : Nat) (x : α)
    (r : Option α) (h : (getSubtreeBest fuel cb best x).1 = .ok r) (hle : fuel ≤ fuel') :
    getSubtreeBest fuel' cb best x = getSubtreeBest fuel cb best x :=
  getSubtreeBest_mono cb best fuel fuel' x _ _ rfl (by rw [h]; simp) hle

theorem solve_eq (fuel : Nat) (b : Board) (best : Nat) :
    solve fuel b best = getSubtreeBest fuel sudokuCallbacks best b := rfl

theorem usqrt_pos (b : Board) (s : Nat) (hpos : 0 < b.size) (hsq : b.size = s * s) :
    0 < usqrt b.size := by
  rw [hsq, usqrt_sq]
  rcases Nat.eq_zero_or_pos s with h | h
  · subst h; omega
  · exact h

/-- C1: for a well-formed root board of perfect-square size whose non-zero values are
pairwise distinct in every row, column and block, the search with the Sudoku callbacks and
target `size * size` returns a board, and that board again has pairwise distinct non-zero
values in every row, column and block (and is well formed, of the same size). -/
theorem solve_legal (b : Board) (s fuel : Nat) (hwf : WellFormed b) (hsq : b.size = s * s)
    (hleg : Legal b) (hfuel : emptyCells b < fuel) :
    ∃ r l, solve fuel b (b.size * b.size) = (.ok (some r), l) ∧
      Legal r ∧ WellFormed r ∧ r.size = b.size := by
  have ht := sudoku_tame b.size Legal (fun b' i j v hwf' hsize hl hne _ _ hck => by
    obtain ⟨hi, hj, _⟩ := nextEmptyBlock_some b' i j hne
    exact legal_setCell b' i j v hwf' hl hi hj
      (usqrt_pos b' s hwf'.1 (by rw [hsize, hsq])) hck)
  obtain ⟨r, l, hrun, y, _, ⟨hwfy, hsy, hly⟩, hcopy, _⟩ :=
    getSubtreeBest_delivers ht fuel b ⟨hwf, rfl, hleg⟩ hfuel
  have hr : y = r := by
    simpa [sudokuCallbacks, copyNode, copyBoard_eq y hwfy] using hcopy
  subst hr
  exact ⟨y, l, hrun, hly, hwfy, hsy⟩

/-- C1 at the root board of scenario A. -/
theorem solve_legal_witness :
    ∃ r l, solve 13 scenarioA (scenarioA.size * scenarioA.size) = (.ok (some r), l) ∧
      Legal r ∧ WellFormed r ∧ r.size = scenarioA.size :=
  solve_legal scenarioA 2 13 (by decide) rfl (by decide) (by decide)

theorem block_lt (s i k : Nat) (hi : i < s * s) (hk : k / s = i / s) : k < s * s := by
  rcases Nat.eq_zero_or_pos s with h | hs
  · subst h; omega
  · have h1 : i / s < s := (Nat.div_lt_iff_lt_mul hs).2 hi
    rw [← hk] at h1
    exact (Nat.div_lt_iff_lt_mul hs).1 h1

theorem completes_checkCell (b c : Board) (s i j : Nat) (hwf : WellFormed b)
    (hsq : b.size = s * s) (hc : Completes c b) (hi : i < b.size) (hj : j < b.size)
    (h0 : getCellValue b i j = 0) : checkCell b i j (getCellValue c i j) = true := by
  obtain ⟨hsize, hleg, hrange, hagree⟩ := hc
  have hs := usqrt_pos b s hwf.1 hsq
  have hv : getCellValue c i j ≠ 0 := by have := (hrange i hi j hj).1; omega
  have key : ∀ k < b.size, ∀ l < b.size, Related c i j k l →
      getCellValue b k l ≠ getCellValue c i j := by
    intro k hk l hl hrel heq
    have hnz : getCellValue b k l ≠ 0 := by rw [heq]; exact hv
    have hkl := hagree k hk l hl hnz
    have := hleg i (by omega) j (by omega) k (by omega) l (by omega)
      ⟨hv, by rw [hkl, heq], hrel⟩
    obtain ⟨rfl, rfl⟩ := this
    exact hnz h0
  rw [checkCell_iff b i j _ hs]
  refine ⟨fun k hk => ⟨key i hi k hk (Or.inl rfl), key k hk j hj (Or.inr (Or.inl rfl))⟩, ?_⟩
  intro k l hk hl
  have hk' : k < b.size := by
    rw [hsq, usqrt_sq] at hk; rw [hsq] at hi ⊢; exact block_lt s i k hi hk
  have hl' : l < b.size := by
    rw [hsq, usqrt_sq] at hl; rw [hsq] at hj ⊢; exact block_lt s j l hj hl
  exact key k hk' l hl' (Or.inr (Or.inr ⟨by rw [hsize]; exact hk.symm,
    by rw [hsize]; exact hl.symm⟩))

theorem completes_setCell (b c : Board) (i j : Nat) (hwf : WellFormed b)
    (hc : Completes c b) (hi : i < b.size) (hj : j < b.size) :
    Completes c (setCell b i j (getCellValue c i j)) := by
  obtain ⟨hsize, hleg, hrange, hagree⟩ := hc
  obtain ⟨_, hrows, hcols, _, _⟩ := hwf
  refine ⟨hsize, hleg, hrange, ?_⟩
  intro a ha k hk
  rw [setCell_size] at ha hk
  rw [getCellValue_setCell b i j _ a k (by omega)
    (by rw [row_length b hrows hcols i hi]; omega)]
  by_cases h : a = i ∧ k = j
  · obtain ⟨rfl, rfl⟩ := h
    simp
  · rw [if_neg h]
    exact hagree a ha k hk

theorem completion_in_preorder (c : Board) (s : Nat) :
    ∀ (fuel : Nat) (b : Board), WellFormed b → b.size = s * s → Completes c b →
      emptyCells b < fuel →
      ∃ z ∈ preorder fuel sudokuCallbacks b, z.filledCells = b.size * b.size := by
  intro fuel
  induction fuel with
  | zero => intro b _ _ _ h; omega
  | succ fuel ih =>
    intro b hwf hsq hc hfuel
    have hwf' := hwf
    obtain ⟨_, hrows, hcols, hfc, _⟩ := hwf'
    rcases hne : nextEmptyBlock b with _ | ⟨i, j⟩
    · refine ⟨b, by simp [preorder], ?_⟩
      rw [hfc, countFilled_full b hrows hcols ((nextEmptyBlock_none b).1 hne)]
    · obtain ⟨hi, hj, h0⟩ := nextEmptyBlock_some b i j hne
      have hv := (hc.2.2.1 i hi j hj)
      have hck := completes_checkCell b c s i j hwf hsq hc hi hj h0
      obtain ⟨hwfc, hcount⟩ := setCell_wellFormed b i j (getCellValue c i j) hwf hi hj h0
      have hv' : (getCellValue c i j != 0) = true := by simp; omega
      simp only [hv', if_true] at hcount
      have hle := countFilled_le _ hwfc.2.1 hwfc.2.2.1
      rw [setCell_size] at hle
      obtain ⟨z, hz, hzf⟩ := ih (setCell b i j (getCellValue c i j)) hwfc
        (by rw [setCell_size, hsq]) (completes_setCell b c i j hwf hc hi hj)
        (by simp only [emptyCells, setCell_size, hcount] at hfuel ⊢; omega)
      have hch : sudokuCallbacks.getChildren b =
          (((assignBoardChildren b i j).length : Int),
            ChildPtr.arr ((assignBoardChildren b i j).map some)) := by
        simp [sudokuCallbacks, getBoardChildren, hne]
      refine ⟨z, ?_, by rw [hzf, setCell_size]⟩
      rw [preorder, childNodes_arr sudokuCallbacks b _ hch]
      apply List.mem_cons_of_mem
      rw [List.mem_flatMap]
      refine ⟨_, ?_, hz⟩
      rw [mem_assignBoardChildren]
      exact ⟨getCellValue c i j, hv.1, hv.2, hck, by rw [copyBoard_eq b hwf]⟩

/-- C2: for a well-formed root board of perfect-square size that has a completion, the
search with the Sudoku callbacks and target `size * size` returns a board whose
`filledCells` is `size * size`. -/
theorem solve_complete (b c : Board) (s fuel : Nat) (hwf : WellFormed b)
    (hsq : b.size = s * s) (hc : Completes c b) (hfuel : emptyCells b < fuel) :
    ∃ r l, solve fuel b (b.size * b.size) = (.ok (some r), l) ∧
      r.filledCells = b.size * b.size := by
  have ht := sudoku_tame b.size (fun _ => True) (fun _ _ _ _ _ _ _ _ _ _ _ => trivial)
  obtain ⟨r, l, hrun, y, _, ⟨hwfy, hsy, _⟩, hcopy, hH⟩ :=
    getSubtreeBest_delivers ht fuel b ⟨hwf, rfl, trivial⟩ hfuel
  have hr : y = r := by
    simpa [sudokuCallbacks, copyNode, copyBoard_eq y hwfy] using hcopy
  subst hr
  have hbound : ∀ z : Board, WellFormed z ∧ z.size = b.size ∧ True →
      sudokuCallbacks.getVal z ≤ b.size * b.size := by
    rintro z ⟨hwfz, hsz, _⟩
    have := countFilled_le z hwfz.2.1 hwfz.2.2.1
    simp only [sudokuCallbacks, getFilledCells, hwfz.2.2.2.1]
    rw [hsz] at this
    exact this
  obtain ⟨_, hmax⟩ := hH hbound
  refine ⟨y, l, hrun, ?_⟩
  rcases hmax with h | h
  · exact h
  · obtain ⟨z, hz, hzf⟩ := completion_in_preorder c s fuel b hwf hsq hc hfuel
    have h1 := h z hz
    have h2 := hbound y ⟨hwfy, hsy, trivial⟩
    simp only [sudokuCallbacks, getFilledCells] at h1 h2
    omega

/-- C2 at the root board of scenario A, with its completion. -/
theorem solve_complete_witness :
    ∃ r l, solve 13 scenarioA (scenarioA.size * scenarioA.size) = (.ok (some r), l) ∧
      r.filledCells = scenarioA.size * scenarioA.size :=
  solve_complete scenarioA scenarioASolved 2 13 (by decide) rfl (by decide) (by decide)

/-- C7: a well-formed board without empty cell gets no children from `getBoardChildren`
(it returns 0 and leaves the array pointer unwritten), and the search with the Sudoku
callbacks and target `size * size` returns a board equal to it, after applying only the
value and the copy callback to it. -/
theorem solve_full (b : Board) (hwf : WellFormed b) (hfull : Full b) :
    getBoardChildren b = (0, ChildPtr.unset) ∧
    ∀ fuel, solve (fuel + 1) b (b.size * b.size) =
      (.ok (some b), [Event.value b, Event.copy b]) := by
  have hne := (nextEmptyBlock_none b).2 hfull
  refine ⟨by simp [getBoardChildren, hne], fun fuel => ?_⟩
  have hwf' := hwf
  obtain ⟨_, hrows, hcols, hfc, _⟩ := hwf'
  have hval : sudokuCallbacks.getVal b = b.size * b.size := by
    simp only [sudokuCallbacks, getFilledCells, hfc, countFilled_full b hrows hcols hfull]
  rw [solve_eq, getSubtreeBest, if_pos hval]
  simp [sudokuCallbacks, copyNode, copyBoard_eq b hwf]

/-- C7 at the solved board of scenario A. -/
theorem solve_full_witness :
    getBoardChildren scenarioASolved = (0, ChildPtr.unset) ∧
    ∀ fuel, solve (fuel + 1) scenarioASolved (scenarioASolved.size * scenarioASolved.size) =
      (.ok (some scenarioASolved), [Event.value scenarioASolved, Event.copy scenarioASolved]) :=
  solve_full scenarioASolved (by decide) (by decide)

/-- C8: in scenario A the search with target 16 returns a board with `filledCells = 16` in
which every row, every column and every 2 x 2 block holds each of 1, 2, 3, 4 exactly
once. -/
theorem scenarioA_solved (fuel : Nat) :
    ∃ r, (solve (fuel + 13) scenarioA 16).1 = .ok (some r) ∧ r.filledCells = 16 ∧
      ∀ k < 4, ∀ v ∈ [1, 2, 3, 4],
        (rowValues r k).count v = 1 ∧ (colValues r k).count v = 1 ∧
          (blockValues r k).count v = 1 := by
  have h : (getSubtreeBest 13 sudokuCallbacks 16 scenarioA).1 = .ok (some scenarioASolved) :=
    rfl
  refine ⟨scenarioASolved, ?_, rfl, by decide⟩
  rw [solve_eq, getSubtreeBest_stable sudokuCallbacks 16 13 (fuel + 13) scenarioA _ h
    (by omega)]
  exact h

/-- C9: in scenario C, the board of size 1 with its cell empty, the search with target 1
returns the board whose cell is 1 and whose `filledCells` is 1. -/
theorem scenarioC_solved (fuel : Nat) :
    (solve (fuel + 2) scenarioC 1).1 =
      .ok (some { size := 1, grid := [[1]], filledCells := 1 }) := by
  have h : (getSubtreeBest 2 sudokuCallbacks 1 scenarioC).1 =
      .ok (some { size := 1, grid := [[1]], filledCells := 1 }) := rfl
  rw [solve_eq, getSubtreeBest_stable sudokuCallbacks 1 2 (fuel + 2) scenarioC _ h
    (by omega)]
  exact h

/-- C10, at the input where the code departs from it: the board `stuckBoard` is well formed
and legal, the search returns it with `filledCells = 4 < 16`, and `main` prints that board
and exits with code 0; it does not print "no solution!". -/
theorem main_prints_unsolved_board (fuel : Nat) :
    WellFormed stuckBoard ∧ Legal stuckBoard ∧
    (solve (fuel + 1) stuckBoard 16).1 = .ok (some stuckBoard) ∧
    stuckBoard.filledCells < 16 ∧
    mainAfterScan (fuel + 1) stuckBoard =
      .ok ("4\n1 2 3 0\n0 0 0 4\n0 0 0 0\n0 0 0 0\n", 0) := by
  have h : (getSubtreeBest 1 sudokuCallbacks 16 stuckBoard).1 = .ok (some stuckBoard) := rfl
  have h2 : (solve (fuel + 1) stuckBoard 16).1 = .ok (some stuckBoard) := by
    rw [solve_eq, getSubtreeBest_stable sudokuCallbacks 16 1 (fuel + 1) stuckBoard _ h
      (by omega)]
    exact h
  refine ⟨by decide, by decide, h2, by decide, ?_⟩
  have h3 : stuckBoard.size * stuckBoard.size = 16 := rfl
  simp only [mainAfterScan, h3, h2]
  rfl

/-! ## Claims about the board operations -/

/-- C12: on a board of size `s * s` (at least 1) and a cell `(i, j)` of the grid, `checkCell`
is true exactly when no cell of row `i`, no cell of column `j` and no cell of the block of
side `s` that contains `(i, j)` holds `v`. -/
theorem checkCell_spec (b : Board) (s i j v : Nat) (hpos : 0 < b.size)
    (hsq : b.size = s * s) (hi : i < b.size) (hj : j < b.size) :
    checkCell b i j v = true ↔
      (∀ k < b.size, getCellValue b i k ≠ v) ∧ (∀ k < b.size, getCellValue b k j ≠ v) ∧
      (∀ k < b.size, ∀ l < b.size, k / s = i / s → l / s = j / s →
        getCellValue b k l ≠ v) := by
  have hs := usqrt_pos b s hpos hsq
  have hu : usqrt b.size = s := by rw [hsq, usqrt_sq]
  rw [checkCell_iff b i j v hs, hu]
  constructor
  · rintro ⟨h1, h2⟩
    exact ⟨fun k hk => (h1 k hk).1, fun k hk => (h1 k hk).2,
      fun k _ l _ hk hl => h2 k l hk hl⟩
  · rintro ⟨h1, h2, h3⟩
    refine ⟨fun k hk => ⟨h1 k hk, h2 k hk⟩, fun k l hk hl => ?_⟩
    rw [hsq] at hi hj
    exact h3 k (by rw [hsq]; exact block_lt s i k hi hk)
      l (by rw [hsq]; exact block_lt s j l hj hl) hk hl

/-- C12 at the root board of scenario A, cell `(0, 1)`, value 2. -/
theorem checkCell_spec_witness :
    checkCell scenarioA 0 1 2 = true ↔
      (∀ k < scenarioA.size, getCellValue scenarioA 0 k ≠ 2) ∧
      (∀ k < scenarioA.size, getCellValue scenarioA k 1 ≠ 2) ∧
      (∀ k < scenarioA.size, ∀ l < scenarioA.size, k / 2 = 0 / 2 → l / 2 = 1 / 2 →
        getCellValue scenarioA k l ≠ 2) :=
  checkCell_spec scenarioA 2 0 1 2 (by decide) rfl (by decide) (by decide)

/-- C16: when the root or one of the four callbacks is `NULL`, `getBest` returns `NULL` and
its log is empty, so no callback was applied; when all five are present it returns what
`getSubtreeBest` returns on the root. -/
theorem getBest_null_check (fuel : Nat) (head : Option α)
    (getChildren : Option (α → Int × ChildPtr α)) (getVal : Option (α → Nat))
    (freeNode : Option (Option α → Unit)) (copy : Option (α → Option α)) (best : Nat) :
    ((head = none ∨ getChildren = none ∨ getVal = none ∨ freeNode = none ∨ copy = none) →
      getBest fuel head getChildren getVal freeNode copy best = (.ok none, [])) ∧
    (∀ h gc gv fr cp, head = some h → getChildren = some gc → getVal = some gv →
      freeNode = some fr → copy = some cp →
      getBest fuel head getChildren getVal freeNode copy best =
        getSubtreeBest fuel { getChildren := gc, getVal := gv, copy := cp } best h) := by
  constructor
  · intro h
    cases head <;> cases getChildren <;> cases getVal <;> cases freeNode <;> cases copy <;>
      simp_all [getBest]
  · rintro h gc gv fr cp rfl rfl rfl rfl rfl
    rfl

theorem range_split (N a : Nat) (l₁ l₂ : List Nat) (h : List.range N = l₁ ++ a :: l₂) :
    a = l₁.length ∧ ∀ x < a, x ∈ l₁ := by
  have hlen : l₁.length < N := by
    have := congrArg List.length h
    simp at this
    omega
  have ha : a = l₁.length := by
    have h1 : (List.range N)[l₁.length]? = some l₁.length := List.getElem?_range hlen
    rw [h, List.getElem?_append_right (le_refl _), Nat.sub_self,
      List.getElem?_cons_zero] at h1
    exact Option.some.inj h1
  refine ⟨ha, fun x hx => ?_⟩
  have hx' : x < l₁.length := by omega
  have h1 : (List.range N)[x]? = some x := List.getElem?_range (by omega)
  rw [h, List.getElem?_append_left hx'] at h1
  exact List.getElem?_mem h1

theorem nextEmptyBlock_first (b : Board) (i j : Nat) (h : nextEmptyBlock b = some (i, j)) :
    FirstEmpty b i j := by
  obtain ⟨hi, hj, h0⟩ := nextEmptyBlock_some b i j h
  refine ⟨hi, hj, h0, ?_, ?_⟩
  · obtain ⟨l₁, a, l₂, hsplit, hfa, _⟩ := List.findSome?_eq_some_iff.1 h
    simp only [Option.map_eq_some', Prod.mk.injEq] at hfa
    obtain ⟨j', hfind, rfl, rfl⟩ := hfa
    obtain ⟨_, as, bs, hsplit', hbefore⟩ := List.find?_eq_some.1 hfind
    obtain ⟨_, hmem⟩ := range_split b.size j' as bs hsplit'
    intro k hk
    have := hbefore k (hmem k hk)
    simpa using this
  · obtain ⟨l₁, a, l₂, hsplit, hfa, hnone⟩ := List.findSome?_eq_some_iff.1 h
    simp only [Option.map_eq_some', Prod.mk.injEq] at hfa
    obtain ⟨j', _, rfl, rfl⟩ := hfa
    obtain ⟨_, hmem⟩ := range_split b.size a l₁ l₂ hsplit
    intro i' hi' k hk
    have := hnone i' (hmem i' hi')
    simp only [Option.map_eq_none', List.find?_eq_none, List.mem_range, beq_iff_eq] at this
    exact this k hk

theorem filterMap_ite {β γ : Type} (p : β → Bool) (f : β → γ) (l : List β) :
    l.filterMap (fun v => if p v = true then some (f v) else none) = (l.filter p).map f := by
  induction l with
  | nil => rfl
  | cons a t ih =>
    by_cases h : p a = true
    · simp [List.filterMap_cons, List.filter_cons, h, ih]
    · simp [List.filterMap_cons, List.filter_cons, h, ih]

/-- C11: a well-formed board without empty cell gets no children: `getBoardChildren` returns
0. Otherwise, with `(i, j)` its first empty cell in row-major order, the array it writes
holds, in ascending order of `v`, one board for each `v` in `1..size` with
`checkCell b i j v` true, and the count returned is their number; the board for `v` has
the size of the parent, `v` in cell `(i, j)`, the value of the parent in every other cell,
and one more filled cell. -/
theorem getBoardChildren_spec (b : Board) (hwf : WellFormed b) :
    (Full b → getBoardChildren b = (0, ChildPtr.unset)) ∧
    (¬ Full b → ∃ i j, FirstEmpty b i j ∧
      getBoardChildren b =
        ((((List.range' 1 b.size).filter fun v => checkCell b i j v).length : Int),
          ChildPtr.arr ((((List.range' 1 b.size).filter fun v => checkCell b i j v).map
            fun v => setCell b i j v).map some)) ∧
      ∀ v, 1 ≤ v → (setCell b i j v).size = b.size ∧
        (setCell b i j v).filledCells = b.filledCells + 1 ∧
        ∀ i' j', getCellValue (setCell b i j v) i' j' =
          if i' = i ∧ j' = j then v else getCellValue b i' j') := by
  constructor
  · intro hfull
    simp [getBoardChildren, (nextEmptyBlock_none b).2 hfull]
  · intro hnf
    rcases hne : nextEmptyBlock b with _ | ⟨i, j⟩
    · exact absurd ((nextEmptyBlock_none b).1 hne) hnf
    · have hfirst := nextEmptyBlock_first b i j hne
      obtain ⟨hi, hj, h0, _, _⟩ := hfirst
      refine ⟨i, j, nextEmptyBlock_first b i j hne, ?_, ?_⟩
      · simp only [getBoardChildren, hne, assignBoardChildren, copyBoard_eq b hwf,
          filterMap_ite, List.length_map]
      · intro v hv
        obtain ⟨hwfc, hcount⟩ := setCell_wellFormed b i j v hwf hi hj h0
        have hv' : (v != 0) = true := by simp; omega
        simp only [hv', if_true] at hcount
        obtain ⟨_, hrows, hcols, hfc, _⟩ := hwf
        refine ⟨rfl, by rw [hwfc.2.2.2.1, hcount, hfc], fun i' j' => ?_⟩
        exact getCellValue_setCell b i j v i' j' (by omega)
          (by rw [row_length b hrows hcols i hi]; exact hj)

/-- C11 at the root board of scenario A. -/
theorem getBoardChildren_spec_witness :
    (Full scenarioA → getBoardChildren scenarioA = (0, ChildPtr.unset)) ∧
    (¬ Full scenarioA → ∃ i j, FirstEmpty scenarioA i j ∧
      getBoardChildren scenarioA =
        ((((List.range' 1 scenarioA.size).filter
            fun v => checkCell scenarioA i j v).length : Int),
          ChildPtr.arr ((((List.range' 1 scenarioA.size).filter
            fun v => checkCell scenarioA i j v).map
              fun v => setCell scenarioA i j v).map some)) ∧
      ∀ v, 1 ≤ v → (setCell scenarioA i j v).size = scenarioA.size ∧
        (setCell scenarioA i j v).filledCells = scenarioA.filledCells + 1 ∧
        ∀ i' j', getCellValue (setCell scenarioA i j v) i' j' =
          if i' = i ∧ j' = j then v else getCellValue scenarioA i' j') :=
  getBoardChildren_spec scenarioA (by decide)

theorem built_wellFormed (b : Board) (hb : Built b) : WellFormed b := by
  induction hb with
  | new N hpos hfit => exact newBoard_wellFormed N hpos hfit
  | set b i j v _ hi hj _ h0 ih => exact (setCell_wellFormed b i j v ih hi hj h0).1

/-- C13: `newBoard` returns a board with every cell zero and `filledCells` 0, the number of
its non-zero cells, and that board is well formed when the size is positive and its square
fits `unsigned int`. On every well-formed board `b`, in which `filledCells` is the number of
non-zero cells (a full board included), the invariant is kept by each operation: `setCell`
on any empty cell of the grid with any value, `copyBoard`, and every child that
`getBoardChildren` writes return a well-formed board whose `filledCells` equals the number
of its non-zero cells. -/
theorem filledCells_invariant (b : Board) (hwf : WellFormed b) :
    (∀ N, (newBoard N).filledCells = 0 ∧ countFilled (newBoard N) = 0 ∧
      (∀ i' j', getCellValue (newBoard N) i' j' = 0) ∧
      (0 < N → N * N < 4294967296 → WellFormed (newBoard N))) ∧
    (∀ i j v, i < b.size → j < b.size → getCellValue b i j = 0 →
      WellFormed (setCell b i j v) ∧
      (setCell b i j v).filledCells = countFilled (setCell b i j v)) ∧
    (WellFormed (copyBoard b) ∧ (copyBoard b).filledCells = countFilled (copyBoard b)) ∧
    ∀ n cs c, getBoardChildren b = (n, ChildPtr.arr cs) → some c ∈ cs →
      WellFormed c ∧ c.filledCells = countFilled c := by
  refine ⟨fun N => ⟨rfl, by simp [newBoard, countFilled, List.countP_replicate],
    fun i' j' => getCellValue_newBoard N i' j', newBoard_wellFormed N⟩,
    fun i j v hi hj h0 => ⟨(setCell_wellFormed b i j v hwf hi hj h0).1,
      (setCell_wellFormed b i j v hwf hi hj h0).1.2.2.2.1⟩, ?_, ?_⟩
  · rw [copyBoard_eq b hwf]; exact ⟨hwf, hwf.2.2.2.1⟩
  · intro n cs c hch hc
    rcases hne : nextEmptyBlock b with _ | ⟨i', j'⟩
    · simp [getBoardChildren, hne] at hch
    · simp only [getBoardChildren, hne, Prod.mk.injEq, ChildPtr.arr.injEq] at hch
      obtain ⟨hi', hj', h0'⟩ := nextEmptyBlock_some b i' j' hne
      rw [← hch.2] at hc
      simp only [List.mem_map, Option.some.injEq, exists_eq_right] at hc
      obtain ⟨w, _, _, _, rfl⟩ := (mem_assignBoardChildren b i' j' c).1 hc
      rw [copyBoard_eq b hwf]
      exact ⟨(setCell_wellFormed b i' j' w hwf hi' hj' h0').1,
        (setCell_wellFormed b i' j' w hwf hi' hj' h0').1.2.2.2.1⟩

/-- C13 at the root board of scenario A, which has empty cells and two children. -/
theorem filledCells_invariant_witness :
    WellFormed scenarioA ∧
    (∀ N, (newBoard N).filledCells = 0 ∧ countFilled (newBoard N) = 0 ∧
      (∀ i' j', getCellValue (newBoard N) i' j' = 0) ∧
      (0 < N → N * N < 4294967296 → WellFormed (newBoard N))) ∧
    (∀ i j v, i < scenarioA.size → j < scenarioA.size → getCellValue scenarioA i j = 0 →
      WellFormed (setCell scenarioA i j v) ∧
      (setCell scenarioA i j v).filledCells = countFilled (setCell scenarioA i j v)) ∧
    (WellFormed (copyBoard scenarioA) ∧
      (copyBoard scenarioA).filledCells = countFilled (copyBoard scenarioA)) ∧
    ∀ n cs c, getBoardChildren scenarioA = (n, ChildPtr.arr cs) → some c ∈ cs →
      WellFormed c ∧ c.filledCells = countFilled c :=
  ⟨by decide, filledCells_invariant scenarioA (by decide)⟩

/-- C14: for a board built by `newBoard` and `setCell` calls that respect the precondition
of `setCell`, `copyBoard` returns an equal board: the same size, the same value in every
cell and the same `filledCells`. -/
theorem copyBoard_deep_copy (b : Board) (hb : Built b) :
    copyBoard b = b ∧ (copyBoard b).size = b.size ∧
    (∀ i j, getCellValue (copyBoard b) i j = getCellValue b i j) ∧
    (copyBoard b).filledCells = b.filledCells := by
  have h := copyBoard_eq b (built_wellFormed b hb)
  exact ⟨h, by rw [h], fun i j => by rw [h], by rw [h]⟩

/-- C14 at the board built from the clues 1 and 2. -/
theorem copyBoard_deep_copy_witness :
    copyBoard oneTwo = oneTwo ∧ (copyBoard oneTwo).size = oneTwo.size ∧
    (∀ i j, getCellValue (copyBoard oneTwo) i j = getCellValue oneTwo i j) ∧
    (copyBoard oneTwo).filledCells = oneTwo.filledCells :=
  copyBoard_deep_copy oneTwo
    (Built.set _ 0 1 2 (Built.set _ 0 0 1 (Built.new 4 (by decide) (by decide))
      (by decide) (by decide) (by decide) (by decide))
      (by decide) (by decide) (by decide) (by decide))

theorem legal_newBoard (N : Nat) : Legal (newBoard N) := by
  intro i _ j _ i' _ j' _ h
  exact absurd (getCellValue_newBoard N i j) h.1

theorem legal_of_cells_eq (b c : Board) (hsize : c.size = b.size)
    (hcells : ∀ i j, getCellValue c i j = getCellValue b i j) (hleg : Legal b) :
    Legal c := by
  intro i hi j hj i' hi' j' hj' ⟨h1, h2, h3⟩
  rw [hsize] at hi hj hi' hj'
  rw [hcells] at h1 h2
  rw [hcells i' j'] at h2
  have h3' : Related b i j i' j' := by
    unfold Related at h3 ⊢
    rw [hsize] at h3
    exact h3
  exact hleg i hi j hj i' hi' j' hj' ⟨h1, h2, h3'⟩

theorem builtChecked_legal (b : Board) (hb : BuiltChecked b) :
    WellFormed b ∧ (∃ s, b.size = s * s) ∧ Legal b := by
  induction hb with
  | new s hpos hfit =>
    exact ⟨newBoard_wellFormed (s * s) (Nat.mul_pos hpos hpos) hfit, ⟨s, rfl⟩,
      legal_newBoard (s * s)⟩
  | set b i j v _ hi hj _ h0 hck ih =>
    obtain ⟨hwf, ⟨s, hsq⟩, hleg⟩ := ih
    refine ⟨(setCell_wellFormed b i j v hwf hi hj h0).1, ⟨s, hsq⟩, ?_⟩
    by_cases hv : v = 0
    · subst hv
      refine legal_of_cells_eq b (setCell b i j 0) rfl ?_ hleg
      intro i' j'
      obtain ⟨_, hrows, hcols, _, _⟩ := hwf
      rw [getCellValue_setCell b i j 0 i' j' (by omega)
        (by rw [row_length b hrows hcols i hi]; exact hj)]
      by_cases h : i' = i ∧ j' = j
      · obtain ⟨rfl, rfl⟩ := h
        simp [h0]
      · rw [if_neg h]
    · exact legal_setCell b i j v hwf hleg hi hj (usqrt_pos b s hwf.1 hsq) (hck hv)

/-- C19, as stated, fails: the board `twoOnes` is built from `newBoard 4` by two `setCell`
calls that respect the precondition of `setCell`, and it holds the value 1 twice in its
first row. -/
theorem built_not_legal :
    Built twoOnes ∧ getCellValue twoOnes 0 0 = 1 ∧ getCellValue twoOnes 0 1 = 1 ∧
    ¬ Legal twoOnes :=
  ⟨Built.set _ 0 1 1 (Built.set _ 0 0 1 (Built.new 4 (by decide) (by decide))
      (by decide) (by decide) (by decide) (by decide))
      (by decide) (by decide) (by decide) (by decide),
    by decide, by decide, by decide⟩

/-- C19, amended: a board built from `newBoard`, of perfect-square size, by `setCell` calls
that respect the precondition of `setCell` and set a non-zero value only where `checkCell`
accepts it, has its non-zero values pairwise distinct in every row, column and block. -/
theorem builtChecked_is_legal (b : Board) (hb : BuiltChecked b) : Legal b :=
  (builtChecked_legal b hb).2.2

/-- The amended C19 at the board built from the clues 1 and 2. -/
theorem builtChecked_is_legal_witness : Legal oneTwo :=
  builtChecked_is_legal oneTwo
    (BuiltChecked.set _ 0 1 2 (BuiltChecked.set _ 0 0 1 (BuiltChecked.new 2 (by decide)
      (by decide)) (by decide) (by decide) (by decide) (by decide) (fun _ => by decide))
      (by decide) (by decide) (by decide) (by decide) (fun _ => by decide))

/-! ## Further claims about the Sudoku search -/

/-- C18: for a well-formed root board the search with the Sudoku callbacks and target
`size * size` returns a board with every fuel above the number of empty cells of the root,
always the same one: no chain of nested calls of `getSubtreeBest` is longer than that
number plus one, the call on the root included, and that number is at most
`size * size`. -/
theorem solve_depth (b : Board) (hwf : WellFormed b) :
    emptyCells b ≤ b.size * b.size ∧
    ∃ r l, ∀ fuel, emptyCells b < fuel →
      solve fuel b (b.size * b.size) = (.ok (some r), l) := by
  refine ⟨Nat.sub_le _ _, ?_⟩
  have ht := sudoku_tame b.size (fun _ => True) (fun _ _ _ _ _ _ _ _ _ _ _ => trivial)
  obtain ⟨r, l, hrun, _⟩ :=
    getSubtreeBest_delivers ht (emptyCells b + 1) b ⟨hwf, rfl, trivial⟩ (by omega)
  refine ⟨r, l, fun fuel hfuel => ?_⟩
  rw [solve_eq]
  exact getSubtreeBest_mono sudokuCallbacks _ (emptyCells b + 1) fuel b _ l hrun (by simp)
    (by omega)

/-- C18 at the root board of scenario A, which has 12 empty cells. -/
theorem solve_depth_witness :
    emptyCells scenarioA ≤ scenarioA.size * scenarioA.size ∧
    ∃ r l, ∀ fuel, emptyCells scenarioA < fuel →
      solve fuel scenarioA (scenarioA.size * scenarioA.size) = (.ok (some r), l) :=
  solve_depth scenarioA (by decide)

/-- C20: for a well-formed root board the search with the Sudoku callbacks and target
`size * size` returns a board of the size of the root that holds, in every cell where the
root is not zero, the value of the root. -/
theorem solve_keeps_clues (b : Board) (fuel : Nat) (hwf : WellFormed b)
    (hfuel : emptyCells b < fuel) :
    ∃ r l, solve fuel b (b.size * b.size) = (.ok (some r), l) ∧ r.size = b.size ∧
      ∀ i < b.size, ∀ j < b.size, getCellValue b i j ≠ 0 →
        getCellValue r i j = getCellValue b i j := by
  have ht := sudoku_tame b.size
    (fun c => ∀ i < b.size, ∀ j < b.size, getCellValue b i j ≠ 0 →
      getCellValue c i j = getCellValue b i j)
    (fun c i j v hwfc hsize hq hne _ _ _ => by
      obtain ⟨hi, hj, h0⟩ := nextEmptyBlock_some c i j hne
      obtain ⟨_, hrows, hcols, _, _⟩ := hwfc
      intro i' hi' j' hj' hnz
      rw [getCellValue_setCell c i j v i' j' (by omega)
        (by rw [row_length c hrows hcols i hi]; exact hj)]
      by_cases h : i' = i ∧ j' = j
      · obtain ⟨rfl, rfl⟩ := h
        have := hq i' hi' j' hj' hnz
        rw [h0] at this
        exact absurd this.symm hnz
      · rw [if_neg h]
        exact hq i' hi' j' hj' hnz)
  obtain ⟨r, l, hrun, y, _, ⟨hwfy, hsy, hqy⟩, hcopy, _⟩ :=
    getSubtreeBest_delivers ht fuel b ⟨hwf, rfl, fun _ _ _ _ _ => rfl⟩ hfuel
  have hr : y = r := by
    simpa [sudokuCallbacks, copyNode, copyBoard_eq y hwfy] using hcopy
  subst hr
  exact ⟨y, l, hrun, hsy, hqy⟩

/-- C20 at the root board of scenario A. -/
theorem solve_keeps_clues_witness :
    ∃ r l, solve 13 scenarioA (scenarioA.size * scenarioA.size) = (.ok (some r), l) ∧
      r.size = scenarioA.size ∧
      ∀ i < scenarioA.size, ∀ j < scenarioA.size, getCellValue scenarioA i j ≠ 0 →
        getCellValue r i j = getCellValue scenarioA i j :=
  solve_keeps_clues scenarioA 13 (by decide) (by decide)

/-! ## Failure and ownership in the generic engine -/

theorem getSubtreeBest_children_error (fuel : Nat) (cb : Callbacks α) (best : Nat) (x : α)
    (n : Int) (cs : List (Option α)) (hv : cb.getVal x ≠ best)
    (hch : cb.getChildren x = (n, ChildPtr.arr cs)) (hn : n < 0) :
    getSubtreeBest (fuel + 1) cb best x =
      (.ok none, [Event.value x, Event.children x]) := by
  simp [getSubtreeBest, hv, hch, hn]

theorem childLoop_child_failure (S : α → Run α) (cb : Callbacks α) (best : Nat) (bc c : α)
    (rest : List (Option α)) (l : List (Event α)) (hv : cb.getVal bc ≠ best)
    (h : S c = (.ok none, l)) :
    (childLoop S cb best (some c :: rest) bc).1 = .ok none := by
  simp [childLoop, updateBestCandidate, hv, h]

theorem getSubtreeBest_child_failure (fuel : Nat) (cb : Callbacks α) (best : Nat) (x bc : α)
    (cs : List (Option α)) (hv : cb.getVal x ≠ best)
    (hch : cb.getChildren x = ((cs.length : Int), ChildPtr.arr cs))
    (hc : cb.copy x = some bc)
    (hloop : (childLoop (getSubtreeBest fuel cb best) cb best cs bc).1 = .ok none) :
    (getSubtreeBest (fuel + 1) cb best x).1 = .ok none := by
  have h0 : ¬ ((cs.length : Int) < 0) := by omega
  rcases hu : childLoop (getSubtreeBest fuel cb best) cb best cs bc with ⟨u, l1⟩
  rw [hu] at hloop
  simp only at hloop
  subst hloop
  simp only [getSubtreeBest, hv, hch, hc, if_false, h0, Int.toNat_ofNat, lt_irrefl,
    List.take_length, hu]

/-- C15, at the input where the code departs from it: node 0 has value 1, not the target 5,
and the children callback reports failure on it, returning -1 with the array pointer
`NULL`; `getSubtreeBest`, hence `getBest`, returns a copy of node 0 instead of `NULL`. -/
theorem getBest_swallows_children_failure (fuel : Nat) :
    demoVal 0 ≠ 5 ∧ failChildren 0 = (-1, ChildPtr.null) ∧
    getBest (fuel + 1) (some 0) (some failChildren) (some demoVal) (some demoFree)
      (some demoCopy) 5 = (.ok (some 0), [Event.value 0, Event.children 0, Event.copy 0]) :=
  ⟨by decide, rfl, rfl⟩

theorem allocated_nil (cb : Callbacks α) : allocated cb [] = [] := rfl

theorem released_nil : released ([] : List (Event α)) = [] := rfl

theorem allocated_append (cb : Callbacks α) (l₁ l₂ : List (Event α)) :
    allocated cb (l₁ ++ l₂) = allocated cb l₁ ++ allocated cb l₂ := by
  simp [allocated, List.flatMap_append]

theorem released_append (l₁ l₂ : List (Event α)) :
    released (l₁ ++ l₂) = released l₁ ++ released l₂ := by
  simp [released, List.flatMap_append]

theorem allocated_cons (cb : Callbacks α) (e : Event α) (l : List (Event α)) :
    allocated cb (e :: l) = allocatedBy cb e ++ allocated cb l := by
  simp [allocated, List.flatMap_cons]

theorem released_cons (e : Event α) (l : List (Event α)) :
    released (e :: l) = releasedBy e ++ released l := by
  simp [released, List.flatMap_cons]

theorem allocated_free (cb : Callbacks α) (cs : List (Option α)) :
    allocated cb (cs.map Event.free) = [] := by
  induction cs with
  | nil => rfl
  | cons c t ih => rw [List.map_cons, allocated_cons, ih]; rfl

theorem released_free (cs : List (Option α)) :
    released (cs.map Event.free) = cs.filterMap id := by
  induction cs with
  | nil => rfl
  | cons c t ih =>
    rw [List.map_cons, released_cons, ih]
    cases c <;> simp [releasedBy]

theorem updateBestCandidate_balanced (S : α → Run α) (cb : Callbacks α) (best : Nat)
    (hS : ∀ c r l, S c = (.ok r, l) → Balanced cb [] r l)
    (bc : α) (c : Option α) (r : Option α) (l : List (Event α))
    (h : updateBestCandidate S cb best bc c = (.ok r, l)) : Balanced cb [bc] r l := by
  cases c with
  | none =>
    simp only [updateBestCandidate, Prod.mk.injEq, Except.ok.injEq] at h
    obtain ⟨rfl, rfl⟩ := h
    simp [Balanced, allocated, released, allocatedBy, releasedBy]
  | some c =>
    rcases hsc : S c with ⟨r1, l1⟩
    rcases r1 with e | _ | nc
    · simp [updateBestCandidate, hsc] at h
    · simp only [updateBestCandidate, hsc, Prod.mk.injEq, Except.ok.injEq] at h
      obtain ⟨rfl, rfl⟩ := h
      have := hS c none l1 hsc
      simp only [Balanced, allocated_cons, allocated_append, released_cons,
        released_append, allocated_nil, released_nil, allocatedBy, releasedBy,
        Option.toList_some, Option.toList_none,
        ← Multiset.coe_add, Multiset.coe_nil, zero_add, add_zero] at this ⊢
      rw [this]
      abel
    · simp only [updateBestCandidate, hsc] at h
      have := hS c (some nc) l1 hsc
      by_cases hg : cb.getVal nc > cb.getVal bc ∧ cb.getVal nc ≤ best
      · simp only [hg, and_self, if_true, Prod.mk.injEq, Except.ok.injEq] at h
        obtain ⟨rfl, rfl⟩ := h
        simp only [Balanced, allocated_cons, allocated_append, released_cons,
          released_append, allocated_nil, released_nil, allocatedBy, releasedBy,
          Option.toList_some, Option.toList_none,
          ← Multiset.coe_add, Multiset.coe_nil, zero_add, add_zero] at this ⊢
        rw [this]
        abel
      · simp only [hg, if_false, Prod.mk.injEq, Except.ok.injEq] at h
        obtain ⟨rfl, rfl⟩ := h
        simp only [Balanced, allocated_cons, allocated_append, released_cons,
          released_append, allocated_nil, released_nil, allocatedBy, releasedBy,
          Option.toList_some, Option.toList_none,
          ← Multiset.coe_add, Multiset.coe_nil, zero_add, add_zero] at this ⊢
        rw [this]
        abel

theorem childLoop_balanced (S : α → Run α) (cb : Callbacks α) (best : Nat)
    (hS : ∀ c r l, S c = (.ok r, l) → Balanced cb [] r l) :
    ∀ (cs : List (Option α)) (bc : α) (r : Option α) (l : List (Event α)),
      childLoop S cb best cs bc = (.ok r, l) → Balanced cb [bc] r l := by
  intro cs
  induction cs with
  | nil =>
    intro bc r l h
    simp only [childLoop, Prod.mk.injEq, Except.ok.injEq] at h
    obtain ⟨rfl, rfl⟩ := h
    simp [Balanced, allocated, released]
  | cons c rest ih =>
    intro bc r l h
    rw [childLoop] at h
    by_cases hv : cb.getVal bc = best
    · simp only [hv, if_true, Prod.mk.injEq, Except.ok.injEq] at h
      obtain ⟨rfl, rfl⟩ := h
      simp [Balanced, allocated, released, allocatedBy, releasedBy]
    · simp only [hv, if_false] at h
      rcases hu : updateBestCandidate S cb best bc c with ⟨u, l1⟩
      simp only [hu] at h
      rcases u with e | _ | next
      · simp at h
      · simp only [Prod.mk.injEq, Except.ok.injEq] at h
        obtain ⟨rfl, rfl⟩ := h
        have := updateBestCandidate_balanced S cb best hS bc c none l1 hu
        simp only [Balanced, allocated_cons, allocated_append, released_cons,
          released_append, allocated_nil, released_nil, allocatedBy, releasedBy,
          Option.toList_some, Option.toList_none,
          ← Multiset.coe_add, Multiset.coe_nil, zero_add, add_zero] at this ⊢
        exact this
      · simp only [Prod.mk.injEq] at h
        obtain ⟨h1, rfl⟩ := h
        have h2 := updateBestCandidate_balanced S cb best hS bc c (some next) l1 hu
        have h3 := ih next r (childLoop S cb best rest next).2 (Prod.ext h1 rfl)
        simp only [Balanced, allocated_cons, allocated_append, released_cons,
          released_append, allocated_nil, released_nil, allocatedBy, releasedBy,
          Option.toList_some, Option.toList_none,
          ← Multiset.coe_add, Multiset.coe_nil, zero_add, add_zero] at h2 h3 ⊢
        rw [← add_assoc, h2, add_right_comm, h3]
        abel

theorem getSubtreeBest_balanced (cb : Callbacks α) (best : Nat) :
    ∀ (fuel : Nat) (x : α) (r : Option α) (l : List (Event α)),
      getSubtreeBest fuel cb best x = (.ok r, l) → Balanced cb [] r l := by
  intro fuel
  induction fuel with
  | zero => intro x r l h; simp [getSubtreeBest] at h
  | succ fuel ih =>
    intro x r l h
    rw [getSubtreeBest] at h
    by_cases hv : cb.getVal x = best
    · simp only [hv, if_true, Prod.mk.injEq, Except.ok.injEq] at h
      obtain ⟨rfl, rfl⟩ := h
      simp [Balanced, allocated, released, allocatedBy, releasedBy]
    · simp only [hv, if_false] at h
      rcases hch : cb.getChildren x with ⟨n, (_ | _ | cs)⟩ <;> simp only [hch] at h
      · simp at h
      · simp only [Prod.mk.injEq, Except.ok.injEq] at h
        obtain ⟨rfl, rfl⟩ := h
        simp [Balanced, allocated, released, allocatedBy, releasedBy, childNodes, hch]
      · by_cases hn : n < 0
        · simp only [hn, if_true, Prod.mk.injEq, Except.ok.injEq] at h
          obtain ⟨rfl, rfl⟩ := h
          have h0 : n.toNat = 0 := by omega
          simp [Balanced, allocated, released, allocatedBy, releasedBy, childNodes, hch, h0]
        · simp only [hn, if_false] at h
          cases hcp : cb.copy x with
          | none =>
            simp only [hcp] at h
            by_cases hn0 : n = 0
            · simp only [hn0, if_true, Prod.mk.injEq, Except.ok.injEq] at h
              obtain ⟨rfl, rfl⟩ := h
              simp [Balanced, allocated, released, allocatedBy, releasedBy, childNodes, hch,
                hn0, hcp]
            · simp [hn0] at h
          | some bc =>
            simp only [hcp] at h
            by_cases hlen : cs.length < n.toNat
            · simp [hlen] at h
            · simp only [hlen, if_false] at h
              rcases hu : childLoop (getSubtreeBest fuel cb best) cb best
                (cs.take n.toNat) bc with ⟨u, l1⟩
              simp only [hu] at h
              rcases u with e | r'
              · simp at h
              · simp only [Prod.mk.injEq, Except.ok.injEq] at h
                obtain ⟨rfl, rfl⟩ := h
                have := childLoop_balanced _ cb best ih _ bc r' l1 hu
                simp only [Balanced, allocated_cons, allocated_append, released_cons,
                  released_append, allocated_nil, released_nil, allocatedBy, releasedBy,
                  allocated_free, released_free, hcp, childNodes, hch,
                  Option.toList_some, Option.toList_none, List.nil_append, List.append_nil,
                  ← Multiset.coe_add, Multiset.coe_nil, zero_add, add_zero] at this ⊢
                rw [this]
                abel

/-- C17: in a run of `getBest` that returns, a node or `NULL`, the nodes handed over by the
copy callback and by the children callback are, up to order and with multiplicity, the
node returned, if any, and the nodes the release callback was applied to. When the nodes
handed over are pairwise distinct, as freshly allocated nodes are, the returned node and
the released nodes are pairwise distinct too: each node handed over is either the one
returned or released exactly once. -/
theorem getBest_releases_all (cb : Callbacks α) (free : Option α → Unit) (best : Nat)
    (fuel : Nat) (root : α) (r : Option α) (l : List (Event α))
    (hrun : getBest fuel (some root) (some cb.getChildren) (some cb.getVal) (some free)
      (some cb.copy) best = (.ok r, l)) :
    (allocated cb l).Perm (r.toList ++ released l) ∧
    ((allocated cb l).Nodup → (r.toList ++ released l).Nodup) := by
  have h := getSubtreeBest_balanced cb best fuel root r l hrun
  have hp : (allocated cb l).Perm (r.toList ++ released l) := by
    simpa [Balanced] using Multiset.coe_eq_coe.1 h
  exact ⟨hp, fun hnd => hp.nodup_iff.1 hnd⟩

/-- C17 at the numbered tree with copies told apart, root 0, target 5: the nodes 1, 2, 3
come from the children callback, 10, 11, 13 from the copy callback; 13 is returned and
the others are released once each. -/
theorem getBest_releases_all_witness :
    [1, 2, 10, 3, 11, 13].Perm ([13] ++ [11, 3, 10, 1, 2]) ∧
    ([1, 2, 10, 3, 11, 13].Nodup → ([13] ++ [11, 3, 10, 1, 2]).Nodup) :=
  getBest_releases_all tagTable demoFree 5 3 0 (some 13)
    (getSubtreeBest 3 tagTable 5 0).2 rfl

/-! ## Bounds of the reads of `checkCell` -/

theorem cellAt?_eq (b : Board) (hrows : b.grid.length = b.size)
    (hcols : ∀ row ∈ b.grid, row.length = b.size) (k l : Nat) (hk : k < b.size)
    (hl : l < b.size) : cellAt? b k l = some (getCellValue b k l) := by
  have hk' : k < b.grid.length := by omega
  have hl' : l < (b.grid[k]).length := by
    rw [hcols _ (List.getElem_mem _)]; exact hl
  simp [cellAt?, getCellValue, List.getElem?_eq_getElem hk', List.getElem?_eq_getElem hl',
    List.getD_eq_getElem _ _ hk', List.getD_eq_getElem _ _ hl']

theorem checkCell_eq_reads (b : Board) (i j v : Nat) :
    checkCell b i j v = (checkCellReads b i j).all fun p => getCellValue b p.1 p.2 != v := by
  rw [Bool.eq_iff_iff]
  simp only [checkCell, checkCellReads, Bool.and_eq_true, List.all_eq_true, List.mem_range,
    bne_iff_ne, ne_eq, List.mem_range'_1, List.mem_append, List.mem_flatMap, List.mem_cons,
    List.mem_singleton, List.not_mem_nil, or_false, List.mem_map]
  constructor
  · rintro ⟨h1, h2⟩ p (⟨k, hk, rfl | rfl⟩ | ⟨k, hk, l, hl, rfl⟩)
    · exact (h1 k hk).1
    · exact (h1 k hk).2
    · exact h2 k hk l hl
  · intro h
    refine ⟨fun k hk => ⟨h (i, k) (Or.inl ⟨k, hk, Or.inl rfl⟩),
      h (k, j) (Or.inl ⟨k, hk, Or.inr rfl⟩)⟩, fun k hk l hl => ?_⟩
    exact h (k, l) (Or.inr ⟨k, hk, l, hl, rfl⟩)

/-- C22: on a board whose grid has `size` rows of `size` cells, with `size = s * s`, and a
cell `(i, j)` of the grid, the block side computed by `checkCell` is `s`, the rows
`i - i % s, ..., i - i % s + s - 1` and the columns `j - j % s, ..., j - j % s + s - 1` of
the block scan are below `size`, and every index pair `checkCell` reads lies inside the
grid: the checked access returns the value, never `none`. The value of `checkCell` is the
comparison of `v` with the cells at exactly these index pairs. -/
theorem checkCell_in_bounds (b : Board) (s i j : Nat) (hrows : b.grid.length = b.size)
    (hcols : ∀ row ∈ b.grid, row.length = b.size) (hsq : b.size = s * s)
    (hi : i < b.size) (hj : j < b.size) :
    usqrt b.size = s ∧
    (∀ k, i - i % s ≤ k → k ≤ i - i % s + s - 1 → k < b.size) ∧
    (∀ l, j - j % s ≤ l → l ≤ j - j % s + s - 1 → l < b.size) ∧
    (∀ p ∈ checkCellReads b i j,
      p.1 < b.size ∧ p.2 < b.size ∧ cellAt? b p.1 p.2 = some (getCellValue b p.1 p.2)) ∧
    ∀ v, checkCell b i j v =
      (checkCellReads b i j).all fun p => getCellValue b p.1 p.2 != v := by
  have hu : usqrt b.size = s := by rw [hsq, usqrt_sq]
  have hs : 0 < s := by
    rcases Nat.eq_zero_or_pos s with h | h
    · subst h; omega
    · exact h
  have hrow : ∀ k, i - i % s ≤ k → k < i - i % s + s → k < b.size := by
    intro k h1 h2
    rw [hsq] at hi ⊢
    exact block_lt s i k hi ((mem_block_iff s i k hs).1 ⟨h1, h2⟩)
  have hcol : ∀ l, j - j % s ≤ l → l < j - j % s + s → l < b.size := by
    intro l h1 h2
    rw [hsq] at hj ⊢
    exact block_lt s j l hj ((mem_block_iff s j l hs).1 ⟨h1, h2⟩)
  refine ⟨hu, fun k h1 h2 => hrow k h1 (by omega), fun l h1 h2 => hcol l h1 (by omega), ?_,
    fun v => checkCell_eq_reads b i j v⟩
  have key : ∀ p ∈ checkCellReads b i j, p.1 < b.size ∧ p.2 < b.size := by
    intro p hp
    simp only [checkCellReads, hu, List.mem_append, List.mem_flatMap, List.mem_range,
      List.mem_cons, List.mem_singleton, List.not_mem_nil, or_false, List.mem_map,
      List.mem_range'_1] at hp
    rcases hp with ⟨k, hk, rfl | rfl⟩ | ⟨k, ⟨hk1, hk2⟩, l, ⟨hl1, hl2⟩, rfl⟩
    · exact ⟨hi, hk⟩
    · exact ⟨hk, hj⟩
    · exact ⟨hrow k hk1 hk2, hcol l hl1 hl2⟩
  intro p hp
  obtain ⟨h1, h2⟩ := key p hp
  exact ⟨h1, h2, cellAt?_eq b hrows hcols p.1 p.2 h1 h2⟩

/-- C22 at the root board of scenario A, cell `(3, 2)`. -/
theorem checkCell_in_bounds_witness :
    usqrt scenarioA.size = 2 ∧
    (∀ k, 3 - 3 % 2 ≤ k → k ≤ 3 - 3 % 2 + 2 - 1 → k < scenarioA.size) ∧
    (∀ l, 2 - 2 % 2 ≤ l → l ≤ 2 - 2 % 2 + 2 - 1 → l < scenarioA.size) ∧
    (∀ p ∈ checkCellReads scenarioA 3 2,
      p.1 < scenarioA.size ∧ p.2 < scenarioA.size ∧
        cellAt? scenarioA p.1 p.2 = some (getCellValue scenarioA p.1 p.2)) ∧
    ∀ v, checkCell scenarioA 3 2 v =
      (checkCellReads scenarioA 3 2).all fun p => getCellValue scenarioA p.1 p.2 != v :=
  checkCell_in_bounds scenarioA 2 3 2 (by decide) (by decide) rfl (by decide) (by decide)

/-! ## The order in which the search meets the completions -/

theorem childNodes_sudoku_none (b : Board) (h : nextEmptyBlock b = none) :
    childNodes sudokuCallbacks b = [] := by
  simp [childNodes, sudokuCallbacks, getBoardChildren, h]

theorem childNodes_sudoku_some (b : Board) (i j : Nat) (hwf : WellFormed b)
    (h : nextEmptyBlock b = some (i, j)) :
    childNodes sudokuCallbacks b =
      ((List.range' 1 b.size).filter fun v => checkCell b i j v).map
        fun v => setCell b i j v := by
  have hch : sudokuCallbacks.getChildren b =
      (((assignBoardChildren b i j).length : Int),
        ChildPtr.arr ((assignBoardChildren b i j).map some)) := by
    simp [sudokuCallbacks, getBoardChildren, h]
  rw [childNodes_arr sudokuCallbacks b _ hch]
  simp only [assignBoardChildren, copyBoard_eq b hwf, filterMap_ite]

theorem preorder_inv (N : Nat) (Q : Board → Prop)
    (hQ : ∀ b i j v, WellFormed b → b.size = N → Q b → nextEmptyBlock b = some (i, j) →
      1 ≤ v → v ≤ N → checkCell b i j v = true → Q (setCell b i j v)) :
    ∀ (fuel : Nat) (b : Board), WellFormed b → b.size = N → Q b →
      ∀ z ∈ preorder fuel sudokuCallbacks b, WellFormed z ∧ z.size = N ∧ Q z := by
  intro fuel
  induction fuel with
  | zero => intro b _ _ _ z hz; simp [preorder] at hz
  | succ fuel ih =>
    intro b hwf hsize hq z hz
    rw [preorder, List.mem_cons] at hz
    rcases hz with rfl | hz
    · exact ⟨hwf, hsize, hq⟩
    · rcases hne : nextEmptyBlock b with _ | ⟨i, j⟩
      · rw [childNodes_sudoku_none b hne] at hz
        simp at hz
      · rw [childNodes_sudoku_some b i j hwf hne, List.mem_flatMap] at hz
        obtain ⟨c, hc, hzc⟩ := hz
        simp only [List.mem_map, List.mem_filter, List.mem_range'_1] at hc
        obtain ⟨v, ⟨⟨hv1, hv2⟩, hck⟩, rfl⟩ := hc
        obtain ⟨hi, hj, h0⟩ := nextEmptyBlock_some b i j hne
        exact ih (setCell b i j v) (setCell_wellFormed b i j v hwf hi hj h0).1
          (by rw [setCell_size, hsize])
          (hQ b i j v hwf hsize hq hne hv1 (by omega) hck) z hzc

theorem full_of_count (b : Board) (hwf : WellFormed b)
    (h : b.filledCells = b.size * b.size) : Full b := by
  by_contra hnf
  rcases hne : nextEmptyBlock b with _ | ⟨i, j⟩
  · exact hnf ((nextEmptyBlock_none b).1 hne)
  · obtain ⟨hi, hj, h0⟩ := nextEmptyBlock_some b i j hne
    obtain ⟨hwfc, hcount⟩ := setCell_wellFormed b i j 1 hwf hi hj h0
    have hle := countFilled_le (setCell b i j 1) hwfc.2.1 hwfc.2.2.1
    rw [setCell_size, hcount] at hle
    have := hwf.2.2.2.1
    simp at hle
    omega

theorem find?_flatMap_sorted {β : Type} (f : Nat → List β) (p : β → Bool) (w : Nat) (yw : β)
    (hw : (f w).find? p = some yw) :
    ∀ vs : List Nat, vs.Pairwise (fun a b => a < b) → w ∈ vs →
      ∃ y, (vs.flatMap f).find? p = some y ∧
        (y = yw ∨ ∃ v ∈ vs, v < w ∧ y ∈ f v ∧ p y = true) := by
  intro vs
  induction vs with
  | nil => intro _ h; simp at h
  | cons a t ih =>
    intro hpw hmem
    rw [List.pairwise_cons] at hpw
    rw [List.flatMap_cons, List.find?_append]
    rcases List.mem_cons.1 hmem with rfl | hmem'
    · exact ⟨yw, by rw [hw]; rfl, Or.inl rfl⟩
    · have hlt : a < w := hpw.1 w hmem'
      cases hfa : (f a).find? p with
      | some y =>
        exact ⟨y, rfl, Or.inr ⟨a, List.mem_cons_self _ _, hlt,
          List.mem_of_find?_eq_some hfa, List.find?_some hfa⟩⟩
      | none =>
        obtain ⟨y, hy, hcase⟩ := ih hpw.2 hmem'
        refine ⟨y, by simpa using hy, ?_⟩
        rcases hcase with h | ⟨v, hv, h⟩
        · exact Or.inl h
        · exact Or.inr ⟨v, List.mem_cons_of_mem _ hv, h⟩

theorem agrees_setCell (root c : Board) (i j v : Nat) (hwf : WellFormed c)
    (hsize : c.size = root.size)
    (hq : ∀ i' < root.size, ∀ j' < root.size, getCellValue root i' j' ≠ 0 →
      getCellValue c i' j' = getCellValue root i' j')
    (hne : nextEmptyBlock c = some (i, j)) :
    ∀ i' < root.size, ∀ j' < root.size, getCellValue root i' j' ≠ 0 →
      getCellValue (setCell c i j v) i' j' = getCellValue root i' j' := by
  obtain ⟨hi, hj, h0⟩ := nextEmptyBlock_some c i j hne
  obtain ⟨_, hrows, hcols, _, _⟩ := hwf
  intro i' hi' j' hj' hnz
  rw [getCellValue_setCell c i j v i' j' (by omega)
    (by rw [row_length c hrows hcols i hi]; exact hj)]
  by_cases h : i' = i ∧ j' = j
  · obtain ⟨rfl, rfl⟩ := h
    have := hq i' hi' j' hj' hnz
    rw [h0] at this
    exact absurd this.symm hnz
  · rw [if_neg h]
    exact hq i' hi' j' hj' hnz

theorem first_full_lex (c : Board) (s : Nat) :
    ∀ (fuel : Nat) (b : Board), WellFormed b → b.size = s * s → Completes c b →
      emptyCells b < fuel →
      ∃ y, (preorder fuel sudokuCallbacks b).find?
          (fun z => decide (z.filledCells = b.size * b.size)) = some y ∧
        y.size = b.size ∧ (SameCells y c ∨ LexLess y c) := by
  intro fuel
  induction fuel with
  | zero => intro b _ _ _ h; omega
  | succ fuel ih =>
    intro b hwf hsq hc hfuel
    have hwf' := hwf
    obtain ⟨_, hrows, hcols, hfc, _⟩ := hwf'
    rcases hne : nextEmptyBlock b with _ | ⟨i, j⟩
    · have hfull := (nextEmptyBlock_none b).1 hne
      refine ⟨b, ?_, rfl, Or.inl ?_⟩
      · rw [preorder, List.find?_cons]
        simp [hfc, countFilled_full b hrows hcols hfull]
      · intro i hi j hj
        exact (hc.2.2.2 i hi j hj (hfull i hi j hj)).symm
    · obtain ⟨hi, hj, h0, hrow, hbefore⟩ := nextEmptyBlock_first b i j hne
      have hv := hc.2.2.1 i hi j hj
      have hck := completes_checkCell b c s i j hwf hsq hc hi hj h0
      obtain ⟨hwfc, hcount⟩ := setCell_wellFormed b i j (getCellValue c i j) hwf hi hj h0
      have hv' : (getCellValue c i j != 0) = true := by simp; omega
      simp only [hv', if_true] at hcount
      have hle := countFilled_le _ hwfc.2.1 hwfc.2.2.1
      rw [setCell_size, hcount] at hle
      obtain ⟨yw, hyw, hyws, hywlex⟩ := ih (setCell b i j (getCellValue c i j)) hwfc
        (by rw [setCell_size, hsq]) (completes_setCell b c i j hwf hc hi hj)
        (by simp only [emptyCells, setCell_size, hcount] at hfuel ⊢; omega)
      rw [setCell_size] at hyw hyws
      have hpw : ((List.range' 1 b.size).filter fun v => checkCell b i j v).Pairwise
          (fun a b => a < b) := (List.pairwise_lt_range' 1 b.size).filter _
      have hmem : getCellValue c i j ∈
          (List.range' 1 b.size).filter fun v => checkCell b i j v := by
        simp only [List.mem_filter, List.mem_range'_1]
        exact ⟨⟨hv.1, by omega⟩, hck⟩
      obtain ⟨y, hy, hcase⟩ := find?_flatMap_sorted
        (fun v => preorder fuel sudokuCallbacks (setCell b i j v))
        (fun z => decide (z.filledCells = b.size * b.size)) (getCellValue c i j) yw hyw
        _ hpw hmem
      have hfind : (preorder (fuel + 1) sudokuCallbacks b).find?
          (fun z => decide (z.filledCells = b.size * b.size)) = some y := by
        rw [preorder, List.find?_cons, childNodes_sudoku_some b i j hwf hne,
          List.flatMap_map]
        have hnot : decide (b.filledCells = b.size * b.size) = false := by
          simp only [decide_eq_false_iff_not]
          omega
        rw [hnot]
        exact hy
      refine ⟨y, hfind, ?_⟩
      rcases hcase with rfl | ⟨v, hvmem, hvlt, hyv, _⟩
      · exact ⟨hyws, hywlex⟩
      · simp only [List.mem_filter, List.mem_range'_1] at hvmem
        obtain ⟨⟨hv1, hv2⟩, hckv⟩ := hvmem
        have hget : ∀ i' j', getCellValue (setCell b i j v) i' j' =
            if i' = i ∧ j' = j then v else getCellValue b i' j' := fun i' j' =>
          getCellValue_setCell b i j v i' j' (by omega)
            (by rw [row_length b hrows hcols i hi]; exact hj)
        obtain ⟨_, hys, hyq⟩ := preorder_inv b.size
          (fun z => ∀ i' < b.size, ∀ j' < b.size,
            getCellValue (setCell b i j v) i' j' ≠ 0 →
              getCellValue z i' j' = getCellValue (setCell b i j v) i' j')
          (fun z i₁ j₁ v₁ hwfz hsz hq hnez _ _ _ =>
            agrees_setCell (setCell b i j v) z i₁ j₁ v₁ hwfz hsz hq hnez)
          fuel (setCell b i j v) (setCell_wellFormed b i j v hwf hi hj h0).1 rfl
          (fun _ _ _ _ _ => rfl) y hyv
        refine ⟨hys, Or.inr ⟨i, j, by omega, by omega, ?_, ?_⟩⟩
        · have := hyq i hi j hj (by rw [hget, if_pos ⟨rfl, rfl⟩]; omega)
          rw [this, hget, if_pos ⟨rfl, rfl⟩]
          exact hvlt
        · intro i' hi' j' hj' hearlier
          rw [hys] at hi' hj'
          have hnz : getCellValue b i' j' ≠ 0 := by
            rcases hearlier with h | ⟨rfl, h⟩
            · exact hbefore i' h j' hj'
            · exact hrow j' h
          have hneq : ¬ (i' = i ∧ j' = j) := by
            rintro ⟨rfl, rfl⟩
            exact hnz h0
          have := hyq i' hi' j' hj' (by rw [hget, if_neg hneq]; exact hnz)
          rw [this, hget, if_neg hneq]
          exact (hc.2.2.2 i' hi' j' hj' hnz).symm

/-- C21: for a well-formed legal root board of perfect-square size that has a completion,
the search with the Sudoku callbacks and target `size * size` returns a completion `r` of
the root, and it is the least one: every completion `c` of the root either has the cells of
`r` or holds, at the first cell in row-major order where the two differ, a value greater
than `r` does. -/
theorem solve_least_completion (b c₀ : Board) (s fuel : Nat) (hwf : WellFormed b)
    (hsq : b.size = s * s) (hleg : Legal b) (hc₀ : Completes c₀ b)
    (hfuel : emptyCells b < fuel) :
    ∃ r l, solve fuel b (b.size * b.size) = (.ok (some r), l) ∧ Completes r b ∧
      ∀ c, Completes c b → SameCells r c ∨ LexLess r c := by
  have ht := sudoku_tame b.size
    (fun z => Legal z ∧
      (∀ i < b.size, ∀ j < b.size, getCellValue z i j ≤ b.size) ∧
      ∀ i < b.size, ∀ j < b.size, getCellValue b i j ≠ 0 →
        getCellValue z i j = getCellValue b i j)
    (fun z i j v hwfz hsize ⟨hl, hr, hq⟩ hne _ hv2 hck => by
      obtain ⟨hi, hj, _⟩ := nextEmptyBlock_some z i j hne
      have hwfz' := hwfz
      obtain ⟨_, hrows, hcols, _, _⟩ := hwfz'
      refine ⟨legal_setCell z i j v hwfz hl hi hj
        (usqrt_pos z s hwfz.1 (by rw [hsize, hsq])) hck, ?_,
        agrees_setCell b z i j v hwfz hsize hq hne⟩
      intro i' hi' j' hj'
      rw [getCellValue_setCell z i j v i' j' (by omega)
        (by rw [row_length z hrows hcols i hi]; exact hj)]
      split
      · exact hv2
      · exact hr i' hi' j' hj')
  have hroot : ∀ i < b.size, ∀ j < b.size, getCellValue b i j ≤ b.size := by
    intro i hi j hj
    by_cases h : getCellValue b i j = 0
    · omega
    · rw [← hc₀.2.2.2 i hi j hj h]
      exact (hc₀.2.2.1 i hi j hj).2
  obtain ⟨r, l, hrun, y, _, ⟨hwfy, hsy, hly, hry, hqy⟩, hcopy, hH⟩ :=
    getSubtreeBest_delivers ht fuel b ⟨hwf, rfl, hleg, hroot, fun _ _ _ _ _ => rfl⟩ hfuel
  have hr : y = r := by
    simpa [sudokuCallbacks, copyNode, copyBoard_eq y hwfy] using hcopy
  subst hr
  have hbound : ∀ z : Board, WellFormed z → z.size = b.size →
      sudokuCallbacks.getVal z ≤ b.size * b.size := by
    intro z hwfz hsz
    have := countFilled_le z hwfz.2.1 hwfz.2.2.1
    simp only [sudokuCallbacks, getFilledCells, hwfz.2.2.2.1]
    rw [hsz] at this
    exact this
  obtain ⟨hfind, hmax⟩ := hH (fun z hz => hbound z hz.1 hz.2.1)
  have hval : y.filledCells = b.size * b.size := by
    rcases hmax with h | h
    · exact h
    · obtain ⟨z, hz, hzf⟩ := completion_in_preorder c₀ s fuel b hwf hsq hc₀ hfuel
      have h1 := h z hz
      have h2 := hbound y hwfy hsy
      simp only [sudokuCallbacks, getFilledCells] at h1 h2
      omega
  have hfull : Full y := full_of_count y hwfy (by rw [hsy]; exact hval)
  have hpred : (fun z : Board =>
      decide (sudokuCallbacks.getVal z = sudokuCallbacks.getVal y)) =
      fun z => decide (z.filledCells = b.size * b.size) := by
    funext z
    simp only [sudokuCallbacks, getFilledCells, hval]
  rw [hpred] at hfind
  refine ⟨y, l, hrun, ⟨hsy, hly, ?_, hqy⟩, ?_⟩
  · intro i hi j hj
    have := hfull i (by omega) j (by omega)
    exact ⟨by omega, hry i hi j hj⟩
  · intro c hc
    obtain ⟨y', hy', _, hlex⟩ := first_full_lex c s fuel b hwf hsq hc hfuel
    rw [hfind] at hy'
    cases hy'
    exact hlex

/-- C21 at the root board of scenario A. -/
theorem solve_least_completion_witness :
    ∃ r l, solve 13 scenarioA (scenarioA.size * scenarioA.size) = (.ok (some r), l) ∧
      Completes r scenarioA ∧ ∀ c, Completes c scenarioA → SameCells r c ∨ LexLess r c :=
  solve_least_completion scenarioA scenarioASolved 2 13 (by decide) rfl (by decide)
    (by decide) (by decide)

end Sudoku
